import Mathlib

/-!
Verification of the canonical GraphQL formatter (`src/format.rs`,
`src/format/query.rs`, `src/format/schema.rs`).

The formatter core is a pure transformation from a parsed GraphQL AST to a
string.  We embed the AST types and the two printers shallowly.  Modelling
conventions, chosen to match how the Rust code actually consumes its inputs:

* `Value` and type expressions are kept as the strings the upstream parser's
  `Display` implementation produces for them; the formatter only ever calls
  `to_string()` on them and never inspects their structure.
* Directive lists are modelled by their length (`Nat`); the formatter only
  ever asks whether the list `is_empty()`.
* Panics (`todo_field!`, `unimplemented!`, `assert!`, and the `usize`
  underflow in `Indentation::decrement`) are modelled as distinct error
  values of an `Except` monad: they abort the whole call without output.
* `Vec::sort_unstable{_by_key}` is modelled by a deterministic (stable)
  insertion sort; the Rust sort's behaviour on key-equal elements is
  unspecified, and the two agree whenever the sort keys are distinct.
* Rust string routines used by the formatter (`str::trim`, `str::lines`,
  byte-lexicographic `Ord` on `String`) are re-implemented on `List Char`.
  Lengths count characters; all text the formatter itself emits is ASCII,
  where bytes and characters coincide.
-/

namespace GqlFmt

/-! ## Sorting preliminaries

`sort_by` is the deterministic insertion sort standing in for
`sort_unstable`/`sort_unstable_by_key`.  The handful of lemmas proved here
are needed before the printers can even be defined (the query printer
recurses into the elements of a sorted list, so its termination argument
needs `sizeOf` invariance under sorting). -/

def ins (le : α → α → Bool) (x : α) : List α → List α
  | [] => [x]
  | y :: ys => if le x y then x :: y :: ys else y :: ins le x ys

def sort_by (le : α → α → Bool) : List α → List α
  | [] => []
  | x :: xs => ins le x (sort_by le xs)

theorem perm_sizeOf {α} [SizeOf α] {l l' : List α} (h : l.Perm l') :
    sizeOf l = sizeOf l' := by
  induction h with
  | nil => rfl
  | cons x _ ih => simp [ih]
  | swap x y l => simp; omega
  | trans _ _ ih1 ih2 => omega

theorem ins_perm (le : α → α → Bool) (x : α) (l : List α) :
    (ins le x l).Perm (x :: l) := by
  induction l with
  | nil => simp [ins]
  | cons y ys ih =>
    simp only [ins]
    split
    · exact List.Perm.refl _
    · exact (List.Perm.cons y ih).trans (List.Perm.swap x y ys)

theorem sort_by_perm (le : α → α → Bool) (l : List α) : (sort_by le l).Perm l := by
  induction l with
  | nil => simp [sort_by]
  | cons x xs ih => exact (ins_perm le x (sort_by le xs)).trans (ih.cons x)

theorem sizeOf_sort_by {α} [SizeOf α] (le : α → α → Bool) (l : List α) :
    sizeOf (sort_by le l) = sizeOf l := perm_sizeOf (sort_by_perm le l)

theorem sort_by_length (le : α → α → Bool) (l : List α) :
    (sort_by le l).length = l.length := (sort_by_perm le l).length_eq

theorem sort_by_isEmpty (le : α → α → Bool) (l : List α) :
    (sort_by le l).isEmpty = l.isEmpty := by
  cases l with
  | nil => rfl
  | cons x xs =>
    have h := sort_by_length le (x :: xs)
    cases hh : sort_by le (x :: xs) with
    | nil => rw [hh] at h; simp at h
    | cons y ys => simp

theorem ins_pairwise (le : α → α → Bool)
    (trans : ∀ a b c, le a b = true → le b c = true → le a c = true)
    (total : ∀ a b, le a b = true ∨ le b a = true)
    (x : α) (l : List α) (h : l.Pairwise (le · · = true)) :
    (ins le x l).Pairwise (le · · = true) := by
  induction l with
  | nil => simp [ins]
  | cons y ys ih =>
    simp only [ins]
    rcases List.pairwise_cons.mp h with ⟨hy, hys⟩
    split
    · rename_i hxy
      refine List.pairwise_cons.mpr ⟨?_, h⟩
      intro z hz
      rcases List.mem_cons.mp hz with rfl | hz
      · exact hxy
      · exact trans _ _ _ hxy (hy z hz)
    · rename_i hxy
      have hyx : le y x = true := by
        rcases total x y with h' | h'
        · exact absurd h' hxy
        · exact h'
      refine List.pairwise_cons.mpr ⟨?_, ih hys⟩
      intro z hz
      rcases List.mem_cons.mp ((ins_perm le x ys).mem_iff.mp hz) with rfl | hz'
      · exact hyx
      · exact hy z hz'

theorem sort_by_pairwise (le : α → α → Bool)
    (trans : ∀ a b c, le a b = true → le b c = true → le a c = true)
    (total : ∀ a b, le a b = true ∨ le b a = true)
    (l : List α) : (sort_by le l).Pairwise (le · · = true) := by
  induction l with
  | nil => simp [sort_by]
  | cons x xs ih => exact ins_pairwise le trans total x _ ih

theorem sort_by_of_sorted (le : α → α → Bool) :
    ∀ {l : List α}, l.Pairwise (le · · = true) → sort_by le l = l := by
  intro l
  induction l with
  | nil => intro _; rfl
  | cons x xs ih =>
    intro h
    rcases List.pairwise_cons.mp h with ⟨hx, hxs⟩
    have : sort_by le (x :: xs) = ins le x xs := by
      simp only [sort_by, ih hxs]
    rw [this]
    cases xs with
    | nil => rfl
    | cons y ys =>
      simp only [ins, hx y (by simp), if_true]

theorem map_ins (le : α → α → Bool) (le' : β → β → Bool) (f : β → α)
    (hf : ∀ a b, le' a b = le (f a) (f b)) (x : β) (l : List β) :
    ins le (f x) (l.map f) = (ins le' x l).map f := by
  induction l with
  | nil => simp [ins]
  | cons y ys ih =>
    simp only [List.map_cons, ins, ← hf]
    split <;> simp_all [ins]

theorem map_sort_by (le : α → α → Bool) (le' : β → β → Bool) (f : β → α)
    (hf : ∀ a b, le' a b = le (f a) (f b)) (l : List β) :
    sort_by le (l.map f) = (sort_by le' l).map f := by
  induction l with
  | nil => simp [sort_by]
  | cons x xs ih => simp only [List.map_cons, sort_by, ih, map_ins le le' f hf]

theorem sorted_perm_eq (le : α → α → Bool)
    (anti : ∀ a b, le a b = true → le b a = true → a = b) :
    ∀ {l l' : List α}, l.Perm l' → l.Pairwise (le · · = true) →
      l'.Pairwise (le · · = true) → l = l' := by
  intro l
  induction l with
  | nil => intro l' hp _ _; exact (hp.nil_eq).symm ▸ rfl
  | cons a t ih =>
    intro l' hp hs hs'
    cases l' with
    | nil => exact absurd hp.symm.nil_eq (by simp)
    | cons b t' =>
      rcases List.pairwise_cons.mp hs with ⟨ha, hts⟩
      rcases List.pairwise_cons.mp hs' with ⟨hb, hts'⟩
      have hab : a = b := by
        by_cases hEq : a = b
        · exact hEq
        · have hat' : a ∈ t' := by
            have : a ∈ b :: t' := hp.mem_iff.mp (by simp)
            rcases List.mem_cons.mp this with h | h
            · exact absurd h hEq
            · exact h
          have hbt : b ∈ t := by
            have : b ∈ a :: t := hp.symm.mem_iff.mp (by simp)
            rcases List.mem_cons.mp this with h | h
            · exact absurd h.symm hEq
            · exact h
          exact anti a b (ha b hbt) (hb a hat')
      subst hab
      have := ih (hp.cons_inv) hts hts'
      rw [this]

/-! ## Rust string primitives

Character-list re-implementations of the Rust string routines the formatter
relies on: byte-lexicographic comparison (UTF-8 byte order coincides with
code-point order), `str::trim` (restricted to the ASCII whitespace the
formatter emits), and `str::lines().last()` (used by
`Output::current_line`). -/

def chars_le : List Char → List Char → Bool
  | [], _ => true
  | _ :: _, [] => false
  | a :: as, b :: bs => if a < b then true else if b < a then false else chars_le as bs

def str_le (a b : String) : Bool := chars_le a.data b.data

def is_rust_ws (c : Char) : Bool := c = ' ' || c = '\t' || c = '\n' || c = '\r'

def rust_trim (s : String) : String :=
  String.mk (((s.data.dropWhile is_rust_ws).reverse.dropWhile is_rust_ws).reverse)

def strip_cr (l : List Char) : List Char :=
  if l.getLast? = some '\r' then l.dropLast else l

/-- `str::lines().last().unwrap_or("")`: the text of the last line of the
buffer.  A final `"\n"` terminates the last line rather than starting an
empty one, and a `"\r"` is stripped only as part of a `"\r\n"` ending. -/
def rust_last_line (cs : List Char) : List Char :=
  if cs.getLast? = some '\n' then
    strip_cr ((cs.dropLast.reverse.takeWhile (fun c => c ≠ '\n')).reverse)
  else
    (cs.reverse.takeWhile (fun c => c ≠ '\n')).reverse

def ends_with (s suffix : String) : Bool := suffix.data.isSuffixOf s.data

def starts_with (s pre : String) : Bool := pre.data.isPrefixOf s.data

/-! ## `format.rs`: constants, `Indentation`, `Output`

`Err` collects the ways a formatting call can abort: `todo` models the
`todo_field!` panic on a non-empty directive list, `unimplemented` the
`unimplemented!` panics, `assert_failed` the `assert!` in
`format_input_values`, and `indent_underflow` the `usize` underflow panic
in `Indentation::decrement`.  All are fatal to the whole call: no partial
output is returned. -/

inductive Err where
  | todo (label : String)
  | unimplemented (label : String)
  | assert_failed
  | indent_underflow
  | fuel_exhausted
  | parse_error
deriving DecidableEq, Repr

def MAX_LINE_LENGTH : Nat := 80

def INDENT_SIZE : Nat := 2

structure Indentation where
  size : Nat
  count : Nat
deriving DecidableEq, Repr

def Indentation.new (size : Nat) : Indentation := ⟨size, 0⟩

def Indentation.spaces (i : Indentation) : String :=
  String.mk (List.replicate (i.count * i.size) ' ')

structure Output where
  buf : String
deriving DecidableEq, Repr

def Output.new : Output := ⟨("")⟩

/-- The pair of `&mut` parameters every printer function threads:
the `Indentation` tracker and the `Output` buffer. -/
structure St where
  indent : Indentation
  out : Output
deriving DecidableEq, Repr

def St.new : St := ⟨Indentation.new INDENT_SIZE, Output.new⟩

def St.increment (st : St) : St :=
  { st with indent := { st.indent with count := st.indent.count + 1 } }

/-- `Indentation::decrement` does `self.count -= 1` on a `usize`: at count
zero this is an underflow panic, modelled as the `indent_underflow` error. -/
def St.decrement (st : St) : Except Err St :=
  if st.indent.count = 0 then .error .indent_underflow
  else .ok { st with indent := { st.indent with count := st.indent.count - 1 } }

/-- `Output::push`: append with the current indentation prefixed. -/
def St.push (st : St) (s : String) : St :=
  { st with out := ⟨st.out.buf ++ st.indent.spaces ++ s⟩ }

/-- `Output::push_str`: append without indentation. -/
def St.push_str (st : St) (s : String) : St :=
  { st with out := ⟨st.out.buf ++ s⟩ }

def St.current_line_length (st : St) : Nat :=
  (rust_last_line st.out.buf.data).length

/-! ## `format/query.rs`: operation-document AST and printer

The AST mirrors `graphql_parser::query`.  `Value`s and type expressions are
the strings the parser displays them as; directive lists are modelled by
their length. -/

namespace query

structure VariableDefinition where
  name : String
  var_type : String
  default_value : Option String
deriving Repr

structure FragmentSpread where
  fragment_name : String
  directives : Nat
deriving Repr

mutual
inductive Field where
  | mk (alias_ : Option String) (name : String) (arguments : List (String × String))
      (directives : Nat) (selection_set : List Selection)

inductive InlineFragment where
  | mk (type_condition : Option String) (directives : Nat) (selection_set : List Selection)

inductive Selection where
  | field (f : Field)
  | fragment_spread (s : FragmentSpread)
  | inline_fragment (i : InlineFragment)
end

structure OperationBody where
  name : Option String
  variable_definitions : List VariableDefinition
  directives : Nat
  selection_set : List Selection

inductive OperationDefinition where
  | selection_set (set : List Selection)
  | query (q : OperationBody)
  | mutation (m : OperationBody)
  | subscription (s : OperationBody)

structure FragmentDefinition where
  name : String
  type_condition : String
  directives : Nat
  selection_set : List Selection

inductive Definition where
  | operation (op : OperationDefinition)
  | fragment (frag : FragmentDefinition)

abbrev Document := List Definition

def selection_set_sort_key : Selection → Nat × String
  | .fragment_spread frag_spread => (3, frag_spread.fragment_name)
  | .inline_fragment (.mk type_condition _ _) =>
    match type_condition with
    | some name => (4, name)
    | none => (5, (""))
  | .field (.mk _ name _ _ selection_set) =>
    if selection_set.isEmpty then (1, name) else (2, name)

/-- The `Ord` instance on `(usize, String)` that `sort_unstable_by_key`
compares with. -/
def tuple_le (a b : Nat × String) : Bool :=
  decide (a.1 < b.1) || (a.1 == b.1 && str_le a.2 b.2)

def selection_le (a b : Selection) : Bool :=
  tuple_le (selection_set_sort_key a) (selection_set_sort_key b)

def render_argument (kv : String × String) : String := kv.1 ++ (": ") ++ kv.2

def render_variable_definition (v : VariableDefinition) : String :=
  ("$") ++ v.name ++ (": ") ++ v.var_type ++
    (match v.default_value with
     | some default => (" = ") ++ default
     | none => (""))

mutual

def format_selection_set (set : List Selection) (st : St) : Except Err St :=
  if set.isEmpty then .ok st
  else
    let st := st.push_str (" \x7b\n")
    let st := st.increment
    match go_selections (sort_by selection_le set) st with
    | .error e => .error e
    | .ok st =>
      match st.decrement with
      | .error e => .error e
      | .ok st => .ok (st.push ("\x7d\n"))
termination_by (sizeOf set, 1)
decreasing_by
  rw [sizeOf_sort_by]
  exact Prod.Lex.right _ (by omega)

/-- The `for selection in items` loop body of `format_selection_set`. -/
def go_selections (items : List Selection) (st : St) : Except Err St :=
  match items with
  | [] => .ok st
  | selection :: rest =>
    match
      (match selection with
       | .field f => format_field f st
       | .fragment_spread frag_spread =>
         if frag_spread.directives ≠ 0 then .error (.todo ("frag_spread.directives"))
         else .ok (st.push (("...") ++ frag_spread.fragment_name ++ ("\n")))
       | .inline_fragment inline_frag => format_inline_fragment inline_frag st)
    with
    | .error e => .error e
    | .ok st => go_selections rest st
termination_by (sizeOf items, 0)
decreasing_by
  all_goals exact Prod.Lex.left _ _ (by simp <;> omega)

def format_field (field : Field) (st : St) : Except Err St :=
  match field with
  | .mk alias_ name arguments directives selection_set =>
    if directives ≠ 0 then .error (.todo ("field.directives"))
    else
      let st :=
        match alias_ with
        | some alias_ => st.push (alias_ ++ (": ") ++ name)
        | none => st.push name
      let res : Except Err St :=
        if arguments.isEmpty then .ok st
        else
          let st := st.push_str ("(")
          let current_line_length := st.current_line_length
          let args := sort_by str_le (arguments.map render_argument)
          let args_joined := String.intercalate (", ") args ++ (")")
          let line_length_with_args := current_line_length + args_joined.length
          if line_length_with_args > MAX_LINE_LENGTH then
            let st := st.increment
            let st := st.push_str ("\n")
            let st := args.foldl (fun st arg => st.push (arg ++ (",\n"))) st
            match st.decrement with
            | .error e => .error e
            | .ok st => .ok (st.push (")"))
          else .ok (st.push_str args_joined)
      match res with
      | .error e => .error e
      | .ok st =>
        if selection_set.isEmpty then .ok (st.push_str ("\n"))
        else format_selection_set selection_set st
termination_by (sizeOf field, 0)
decreasing_by
  exact Prod.Lex.left _ _ (by simp)

def format_inline_fragment (inline_frag : InlineFragment) (st : St) : Except Err St :=
  match inline_frag with
  | .mk type_condition directives selection_set =>
    if directives ≠ 0 then .error (.todo ("inline_frag.directives"))
    else
      let st := st.push ("...")
      let st :=
        match type_condition with
        | some type_condition => st.push_str ((" on ") ++ type_condition)
        | none => st
      format_selection_set selection_set st
termination_by (sizeOf inline_frag, 0)
decreasing_by
  exact Prod.Lex.left _ _ (by simp)

end

/-- `format_fragment` prints the header and the selection set.  Note that, in
the source, `frag.directives` is never examined here. -/
def format_fragment (frag : FragmentDefinition) (st : St) : Except Err St :=
  let st := st.push (("fragment ") ++ frag.name ++ (" on ") ++ frag.type_condition)
  format_selection_set frag.selection_set st

/-- `format_operation_type`, with the `OperationType` enum's keyword passed as
the string its `Display` produces. -/
def format_operation_type (keyword : String) (op : OperationBody) (st : St) : Except Err St :=
  if op.directives ≠ 0 then .error (.todo ("type.directives"))
  else
    let st :=
      match op.name with
      | some name => st.push (keyword ++ (" ") ++ name)
      | none => st.push keyword
    let st :=
      if op.variable_definitions.isEmpty then st
      else
        let st := if op.name.isSome then st.push_str ("(") else st.push_str (" (")
        let args := String.intercalate (", ") (op.variable_definitions.map render_variable_definition)
        (st.push_str args).push_str (")")
    match format_selection_set op.selection_set st with
    | .error e => .error e
    | .ok st => .ok (st.push_str ("\n"))

def format_operation (op : OperationDefinition) (st : St) : Except Err St :=
  match op with
  | .query q => format_operation_type ("query") q st
  | .mutation m => format_operation_type ("mutation") m st
  | .selection_set set => format_selection_set set st
  | .subscription sub => format_operation_type ("subscription") sub st

def format_def (d : Definition) (st : St) : Except Err St :=
  match d with
  | .operation operation => format_operation operation st
  | .fragment fragment => format_fragment fragment st

/-- The `for def in doc.definitions` loop of `format_doc`. -/
def format_doc (doc : Document) (st : St) : Except Err St :=
  match doc with
  | [] => .ok st
  | d :: rest =>
    match format_def d st with
    | .error e => .error e
    | .ok st => format_doc rest st

/-- `query::format`, from the AST on (parsing is the external parser's job). -/
def format (doc : Document) : Except Err String :=
  match format_doc doc St.new with
  | .error e => .error e
  | .ok st => .ok (rust_trim st.out.buf)

end query

/-! ## `format/schema.rs`: type-system-document AST and printer

Mirrors `graphql_parser::schema` as used by the printer: enum values are
represented by their names (the printer reads nothing else), type
expressions by their displayed strings, and `InputValue` default values and
directives are absent because the printer never reads them. -/

namespace schema

structure InputValue where
  name : String
  description : Option String
  value_type : String
deriving Repr

structure Field where
  name : String
  description : Option String
  arguments : List InputValue
  field_type : String
deriving Repr

inductive TypeDefinition where
  | object (name : String) (description : Option String)
      (implements_interfaces : List String) (fields : List Field)
  | enum (name : String) (description : Option String) (values : List String)
  | scalar (name : String) (description : Option String)
  | interface (name : String) (description : Option String) (fields : List Field)
  | input_object (name : String) (description : Option String) (fields : List InputValue)
  | union (name : String) (description : Option String) (types : List String)
deriving Repr

inductive Definition where
  | schema_definition (mutation query subscription : Option String)
  | type_definition (t : TypeDefinition)
  | type_extension
  | directive_definition
deriving Repr

abbrev Document := List Definition

/-- `map_join`, specialised to the string mappers the printer uses. -/
def map_join (parts : List String) (sep : String) (st : St) : St :=
  st.push_str (String.intercalate sep parts)

def push_desc (desc : Option String) (st : St) : St :=
  match desc with
  | some desc => st.push (("\"") ++ desc ++ ("\"\n"))
  | none => st

def format_input_value (value : InputValue) (st : St) : St :=
  let st := push_desc value.description st
  st.push (value.name ++ (": ") ++ value.value_type)

/-- `itertools::Position` of an element in a traversed collection. -/
inductive Position where
  | first
  | middle
  | last
  | only
deriving DecidableEq, Repr

def with_position_rest : List α → List (Position × α)
  | [] => []
  | [a] => [(.last, a)]
  | a :: rest => (.middle, a) :: with_position_rest rest

/-- `Itertools::with_position`. -/
def with_position : List α → List (Position × α)
  | [] => []
  | [a] => [(.only, a)]
  | a :: rest => (.first, a) :: with_position_rest rest

/-- The `for pos in values.into_iter().with_position()` loop of
`format_input_values`. -/
def input_values_go (has_docs no_docs : Bool) (l : List (Position × InputValue)) (st : St) : St :=
  match l with
  | [] => st
  | (pos, value) :: rest =>
    let st := format_input_value value st
    let push_newline_because_docs :=
      match pos with
      | .first | .middle => has_docs
      | _ => false
    let st :=
      if push_newline_because_docs then st.push_str ("\n\n")
      else if no_docs then st.push_str ("\n")
      else st
    let st :=
      match pos with
      | .last => if !no_docs then st.push_str ("\n") else st
      | _ => st
    input_values_go has_docs no_docs rest st

def format_input_values (values : List InputValue) (st : St) : Except Err St :=
  let st := st.increment
  let values := sort_by (fun a b => str_le a.name b.name) values
  let has_docs := values.any (fun value => value.description.isSome)
  let no_docs := values.all (fun value => value.description.isNone)
  if has_docs && no_docs then .error .assert_failed
  else
    let st := input_values_go has_docs no_docs (with_position values) st
    st.decrement

/-- Rendering of one schema-field argument: `format_input_value` into a fresh
`Output` with a width-0 `Indentation`, then trimmed. -/
def render_field_argument (input_value : InputValue) : String :=
  rust_trim (format_input_value input_value ⟨Indentation.new 0, Output.new⟩).out.buf

def format_field (field : Field) (st : St) : Except Err St :=
  let st := push_desc field.description st
  let st := st.push field.name
  let res : Except Err St :=
    if field.arguments.isEmpty then .ok st
    else
      let st := st.push_str ("(")
      let current_line_length := st.current_line_length
      let args := sort_by str_le (field.arguments.map render_field_argument)
      let args_joined := String.intercalate (", ") args ++ (")")
      let line_length_with_args := current_line_length + args_joined.length
      if line_length_with_args > MAX_LINE_LENGTH then
        let st := st.increment
        let st := st.push_str ("\n")
        let st := args.foldl (fun st arg => st.push (arg ++ (",\n"))) st
        match st.decrement with
        | .error e => .error e
        | .ok st => .ok (st.push (")"))
      else .ok (st.push_str args_joined)
  match res with
  | .error e => .error e
  | .ok st => .ok (st.push_str ((": ") ++ field.field_type ++ ("\n")))

/-- The `for field in fields` loop of `format_fields`. -/
def fields_go : List Field → St → Except Err St
  | [], st => .ok st
  | field :: rest, st =>
    match format_field field st with
    | .error e => .error e
    | .ok st => fields_go rest st

def format_fields (fields : List Field) (st : St) : Except Err St :=
  let st := st.increment
  let fields := sort_by (fun a b => str_le a.name b.name) fields
  match fields_go fields st with
  | .error e => .error e
  | .ok st => st.decrement

def format_type (type_def : TypeDefinition) (st : St) : Except Err St :=
  match type_def with
  | .object name description implements_interfaces fields =>
    let st := push_desc description st
    let st := st.push (("type ") ++ name)
    let st :=
      if implements_interfaces.isEmpty then st
      else map_join implements_interfaces (" & ") (st.push_str (" implements "))
    let st := st.push_str (" \x7b\n")
    match format_fields fields st with
    | .error e => .error e
    | .ok st => .ok (st.push ("\x7d\n\n"))
  | .enum name description values =>
    let st := push_desc description st
    let st := st.push (("enum ") ++ name ++ (" \x7b\n"))
    let st := st.increment
    let values := sort_by str_le values
    let st := values.foldl (fun st value => st.push (value ++ ("\n"))) st
    match st.decrement with
    | .error e => .error e
    | .ok st => .ok (st.push ("\x7d\n\n"))
  | .scalar name description =>
    let st := push_desc description st
    .ok (st.push (("scalar ") ++ name ++ ("\n\n")))
  | .interface name description fields =>
    let st := push_desc description st
    let st := st.push (("interface ") ++ name ++ (" \x7b\n"))
    match format_fields fields st with
    | .error e => .error e
    | .ok st => .ok (st.push ("\x7d\n\n"))
  | .input_object name description fields =>
    let st := push_desc description st
    let st := st.push (("input ") ++ name ++ (" \x7b\n"))
    match format_input_values fields st with
    | .error e => .error e
    | .ok st => .ok (st.push ("\x7d\n\n"))
  | .union name description types =>
    let st := push_desc description st
    let st := st.push (("union ") ++ name ++ (" = "))
    let types := sort_by str_le types
    let st := map_join types (" | ") st
    .ok (st.push_str ("\n\n"))

def format_def (d : Definition) (st : St) : Except Err St :=
  match d with
  | .schema_definition mutation query subscription =>
    let st := st.push ("schema \x7b\n")
    let st := st.increment
    let st :=
      match mutation with
      | some mutation => st.push (("mutation: ") ++ mutation ++ ("\n"))
      | none => st
    let st :=
      match query with
      | some query => st.push (("query: ") ++ query ++ ("\n"))
      | none => st
    let st :=
      match subscription with
      | some subscription => st.push (("subscription: ") ++ subscription ++ ("\n"))
      | none => st
    match st.decrement with
    | .error e => .error e
    | .ok st => .ok (st.push ("\x7d\n\n"))
  | .type_definition type_def => format_type type_def st
  | .type_extension => .error (.unimplemented ("TypeExtension"))
  | .directive_definition => .error (.unimplemented ("DirectiveDefinition"))

/-- The `for def in ast.definitions` loop of `schema::format`. -/
def format_doc (doc : Document) (st : St) : Except Err St :=
  match doc with
  | [] => .ok st
  | d :: rest =>
    match format_def d st with
    | .error e => .error e
    | .ok st => format_doc rest st

/-- `schema::format`, from the AST on (parsing is the external parser's job). -/
def format (doc : Document) : Except Err String :=
  match format_doc doc St.new with
  | .error e => .error e
  | .ok st => .ok (rust_trim st.out.buf)

end schema

/-! ## Structural evaluation mirror for the query printer

The four printer functions above recurse through `sort_by`, so Lean compiles
them by well-founded recursion and the kernel cannot evaluate them on
concrete documents.  The `*_fuel` twins below have identical bodies but
recurse structurally on an explicit fuel counter; the bridge lemmas (proved
with the rest of the theorems) show they agree with the printer whenever the
fuel is at least `4 * sizeOf` of the argument, so concrete runs of the
printer can be computed by `rfl` through them.  Exhausted fuel yields the
`fuel_exhausted` error, which the bridge lemmas prove unreachable. -/

namespace query

mutual

def fss_fuel : Nat → List Selection → St → Except Err St
  | 0, _, _ => .error .fuel_exhausted
  | fuel + 1, set, st =>
    if set.isEmpty then .ok st
    else
      let st := st.push_str (" \x7b\n")
      let st := st.increment
      match gos_fuel fuel (sort_by selection_le set) st with
      | .error e => .error e
      | .ok st =>
        match st.decrement with
        | .error e => .error e
        | .ok st => .ok (st.push ("\x7d\n"))

def gos_fuel : Nat → List Selection → St → Except Err St
  | 0, _, _ => .error .fuel_exhausted
  | fuel + 1, items, st =>
    match items with
    | [] => .ok st
    | selection :: rest =>
      match
        (match selection with
         | .field f => ff_fuel fuel f st
         | .fragment_spread frag_spread =>
           if frag_spread.directives ≠ 0 then .error (.todo ("frag_spread.directives"))
           else .ok (st.push (("...") ++ frag_spread.fragment_name ++ ("\n")))
         | .inline_fragment inline_frag => fif_fuel fuel inline_frag st)
      with
      | .error e => .error e
      | .ok st => gos_fuel fuel rest st

def ff_fuel : Nat → Field → St → Except Err St
  | 0, _, _ => .error .fuel_exhausted
  | fuel + 1, field, st =>
    match field with
    | .mk alias_ name arguments directives selection_set =>
      if directives ≠ 0 then .error (.todo ("field.directives"))
      else
        let st :=
          match alias_ with
          | some alias_ => st.push (alias_ ++ (": ") ++ name)
          | none => st.push name
        let res : Except Err St :=
          if arguments.isEmpty then .ok st
          else
            let st := st.push_str ("(")
            let current_line_length := st.current_line_length
            let args := sort_by str_le (arguments.map render_argument)
            let args_joined := String.intercalate (", ") args ++ (")")
            let line_length_with_args := current_line_length + args_joined.length
            if line_length_with_args > MAX_LINE_LENGTH then
              let st := st.increment
              let st := st.push_str ("\n")
              let st := args.foldl (fun st arg => st.push (arg ++ (",\n"))) st
              match st.decrement with
              | .error e => .error e
              | .ok st => .ok (st.push (")"))
            else .ok (st.push_str args_joined)
        match res with
        | .error e => .error e
        | .ok st =>
          if selection_set.isEmpty then .ok (st.push_str ("\n"))
          else fss_fuel fuel selection_set st

def fif_fuel : Nat → InlineFragment → St → Except Err St
  | 0, _, _ => .error .fuel_exhausted
  | fuel + 1, inline_frag, st =>
    match inline_frag with
    | .mk type_condition directives selection_set =>
      if directives ≠ 0 then .error (.todo ("inline_frag.directives"))
      else
        let st := st.push ("...")
        let st :=
          match type_condition with
          | some type_condition => st.push_str ((" on ") ++ type_condition)
          | none => st
        fss_fuel fuel selection_set st

end

mutual

def sel_weight : Selection → Nat
  | .field f => 1 + field_weight f
  | .fragment_spread _ => 1
  | .inline_fragment i => 1 + inline_weight i

def field_weight : Field → Nat
  | .mk _ _ _ _ selection_set => 1 + sels_weight selection_set

def inline_weight : InlineFragment → Nat
  | .mk _ _ selection_set => 1 + sels_weight selection_set

def sels_weight : List Selection → Nat
  | [] => 0
  | s :: rest => 1 + sel_weight s + sels_weight rest

end

/-- Fuel-measured twin of `format_selection_set` with the provably
sufficient fuel value filled in. -/
def format_selection_set_eval (set : List Selection) (st : St) : Except Err St :=
  fss_fuel (4 * sels_weight set + 2) set st

def format_fragment_eval (frag : FragmentDefinition) (st : St) : Except Err St :=
  let st := st.push (("fragment ") ++ frag.name ++ (" on ") ++ frag.type_condition)
  format_selection_set_eval frag.selection_set st

def format_operation_type_eval (keyword : String) (op : OperationBody) (st : St) : Except Err St :=
  if op.directives ≠ 0 then .error (.todo ("type.directives"))
  else
    let st :=
      match op.name with
      | some name => st.push (keyword ++ (" ") ++ name)
      | none => st.push keyword
    let st :=
      if op.variable_definitions.isEmpty then st
      else
        let st := if op.name.isSome then st.push_str ("(") else st.push_str (" (")
        let args := String.intercalate (", ") (op.variable_definitions.map render_variable_definition)
        (st.push_str args).push_str (")")
    match format_selection_set_eval op.selection_set st with
    | .error e => .error e
    | .ok st => .ok (st.push_str ("\n"))

def format_def_eval (d : Definition) (st : St) : Except Err St :=
  match d with
  | .operation (.query q) => format_operation_type_eval ("query") q st
  | .operation (.mutation m) => format_operation_type_eval ("mutation") m st
  | .operation (.selection_set set) => format_selection_set_eval set st
  | .operation (.subscription sub) => format_operation_type_eval ("subscription") sub st
  | .fragment fragment => format_fragment_eval fragment st

def format_doc_eval (doc : Document) (st : St) : Except Err St :=
  match doc with
  | [] => .ok st
  | d :: rest =>
    match format_def_eval d st with
    | .error e => .error e
    | .ok st => format_doc_eval rest st

def format_eval (doc : Document) : Except Err String :=
  match format_doc_eval doc St.new with
  | .error e => .error e
  | .ok st => .ok (rust_trim st.out.buf)

end query


/-! ## Canonicalized documents

`canon_document` computes, AST-side, the document that the external parser
produces when it re-parses the printer's output: every selection set is
sorted by the selection key, argument lists appear in the printed (rendered
string) order, and schema definitions carry their lists in printed order.
Everything else (names, values, descriptions, directives) is unchanged. -/

namespace query

/-- Printed order of field arguments: ascending in the rendered
`name: value` text. -/
def arg_le (a b : String × String) : Bool :=
  str_le (render_argument a) (render_argument b)

mutual

def canon_field_q : Field → Field
  | .mk alias_ name arguments directives selection_set =>
    .mk alias_ name (sort_by arg_le arguments) directives
      (sort_by selection_le (canon_selections selection_set))

def canon_inline : InlineFragment → InlineFragment
  | .mk type_condition directives selection_set =>
    .mk type_condition directives (sort_by selection_le (canon_selections selection_set))

def canon_selection : Selection → Selection
  | .field f => .field (canon_field_q f)
  | .fragment_spread s => .fragment_spread s
  | .inline_fragment i => .inline_fragment (canon_inline i)

def canon_selections : List Selection → List Selection
  | [] => []
  | s :: rest => canon_selection s :: canon_selections rest

end

def canon_operation_body (b : OperationBody) : OperationBody :=
  { b with selection_set := sort_by selection_le (canon_selections b.selection_set) }

def canon_operation : OperationDefinition → OperationDefinition
  | .selection_set set => .selection_set (sort_by selection_le (canon_selections set))
  | .query q => .query (canon_operation_body q)
  | .mutation m => .mutation (canon_operation_body m)
  | .subscription s => .subscription (canon_operation_body s)

def canon_definition : Definition → Definition
  | .operation op => .operation (canon_operation op)
  | .fragment f =>
    .fragment { f with selection_set := sort_by selection_le (canon_selections f.selection_set) }

def canon_document (doc : Document) : Document := doc.map canon_definition

end query

namespace schema

def canon_field (f : Field) : Field :=
  { f with arguments :=
      sort_by (fun a b => str_le (render_field_argument a) (render_field_argument b)) f.arguments }

def canon_type : TypeDefinition → TypeDefinition
  | .object name desc impls fields =>
    .object name desc impls (sort_by (fun a b => str_le a.name b.name) (fields.map canon_field))
  | .enum name desc values => .enum name desc (sort_by str_le values)
  | .scalar name desc => .scalar name desc
  | .interface name desc fields =>
    .interface name desc (sort_by (fun a b => str_le a.name b.name) (fields.map canon_field))
  | .input_object name desc fields =>
    .input_object name desc (sort_by (fun a b => str_le a.name b.name) fields)
  | .union name desc types => .union name desc (sort_by str_le types)

def canon_definition : Definition → Definition
  | .schema_definition m q s => .schema_definition m q s
  | .type_definition t => .type_definition (canon_type t)
  | .type_extension => .type_extension
  | .directive_definition => .directive_definition

def canon_document (doc : Document) : Document := doc.map canon_definition

end schema

/-! ## Order facts for the comparison functions -/

theorem chars_le_total : ∀ a b : List Char, chars_le a b = true ∨ chars_le b a = true := by
  intro a
  induction a with
  | nil => intro b; left; simp [chars_le]
  | cons x as ih =>
    intro b
    cases b with
    | nil => right; simp [chars_le]
    | cons y bs =>
      rcases lt_trichotomy x y with h | h | h
      · left; simp [chars_le, h]
      · subst h
        rcases ih bs with h' | h'
        · left; simp [chars_le, h', lt_irrefl]
        · right; simp [chars_le, h', lt_irrefl]
      · right; simp [chars_le, h]

theorem chars_le_trans : ∀ a b c : List Char,
    chars_le a b = true → chars_le b c = true → chars_le a c = true := by
  intro a
  induction a with
  | nil => intro b c _ _; simp [chars_le]
  | cons x as ih =>
    intro b c h1 h2
    cases b with
    | nil => simp [chars_le] at h1
    | cons y bs =>
      cases c with
      | nil => simp [chars_le] at h2
      | cons z cs =>
        simp only [chars_le] at h1 h2 ⊢
        by_cases hxy : x < y
        · by_cases hyz : y < z
          · simp [lt_trans hxy hyz]
          · by_cases hzy : z < y
            · simp [hyz, hzy] at h2
            · have : y = z := le_antisymm (not_lt.mp hzy) (not_lt.mp hyz)
              subst this
              simp [hxy]
        · by_cases hyx : y < x
          · simp [hxy, hyx] at h1
          · have hxyeq : x = y := le_antisymm (not_lt.mp hyx) (not_lt.mp hxy)
            subst hxyeq
            simp only [lt_irrefl, if_false] at h1
            by_cases hyz : x < z
            · simp [hyz]
            · by_cases hzy : z < x
              · simp [hyz, hzy] at h2
              · simp only [if_neg hyz, if_neg hzy] at h2
                simp [hyz, hzy, ih bs cs h1 h2]

theorem chars_le_antisymm : ∀ a b : List Char,
    chars_le a b = true → chars_le b a = true → a = b := by
  intro a
  induction a with
  | nil =>
    intro b _ h2
    cases b with
    | nil => rfl
    | cons y bs => simp [chars_le] at h2
  | cons x as ih =>
    intro b h1 h2
    cases b with
    | nil => simp [chars_le] at h1
    | cons y bs =>
      simp only [chars_le] at h1 h2
      by_cases hxy : x < y
      · simp [lt_asymm hxy, hxy] at h2
      · by_cases hyx : y < x
        · simp [hxy, hyx] at h1
        · have hxyeq : x = y := le_antisymm (not_lt.mp hyx) (not_lt.mp hxy)
          subst hxyeq
          simp only [lt_irrefl, if_false] at h1 h2
          rw [ih bs h1 h2]

theorem str_le_total : ∀ a b : String, str_le a b = true ∨ str_le b a = true :=
  fun a b => chars_le_total a.data b.data

theorem str_le_trans : ∀ a b c : String,
    str_le a b = true → str_le b c = true → str_le a c = true :=
  fun a b c h1 h2 => chars_le_trans a.data b.data c.data h1 h2

theorem str_le_antisymm : ∀ a b : String,
    str_le a b = true → str_le b a = true → a = b := by
  intro a b h1 h2
  cases a with
  | mk da =>
    cases b with
    | mk db =>
      have := chars_le_antisymm da db h1 h2
      simp [this]

theorem key_le_total (f : α → String) :
    ∀ a b, str_le (f a) (f b) = true ∨ str_le (f b) (f a) = true :=
  fun a b => str_le_total (f a) (f b)

theorem key_le_trans (f : α → String) : ∀ a b c : α,
    str_le (f a) (f b) = true → str_le (f b) (f c) = true → str_le (f a) (f c) = true :=
  fun a b c h1 h2 => str_le_trans _ _ _ h1 h2

namespace query

theorem tuple_le_total : ∀ a b, tuple_le a b = true ∨ tuple_le b a = true := by
  intro ⟨na, sa⟩ ⟨nb, sb⟩
  simp only [tuple_le]
  rcases Nat.lt_trichotomy na nb with h | h | h
  · left; simp [h]
  · subst h
    rcases str_le_total sa sb with h' | h'
    · left; simp [h']
    · right; simp [h']
  · right; simp [h]

theorem tuple_le_trans : ∀ a b c,
    tuple_le a b = true → tuple_le b c = true → tuple_le a c = true := by
  intro ⟨na, sa⟩ ⟨nb, sb⟩ ⟨nc, sc⟩ h1 h2
  simp only [tuple_le, Bool.or_eq_true, Bool.and_eq_true, decide_eq_true_eq, beq_iff_eq] at h1 h2 ⊢
  rcases h1 with h1 | ⟨rfl, h1⟩
  · rcases h2 with h2 | ⟨rfl, h2⟩
    · exact Or.inl (Nat.lt_trans h1 h2)
    · exact Or.inl h1
  · rcases h2 with h2 | ⟨rfl, h2⟩
    · exact Or.inl h2
    · exact Or.inr ⟨rfl, str_le_trans _ _ _ h1 h2⟩

theorem selection_le_total : ∀ a b, selection_le a b = true ∨ selection_le b a = true :=
  fun a b => tuple_le_total _ _

theorem selection_le_trans : ∀ a b c,
    selection_le a b = true → selection_le b c = true → selection_le a c = true :=
  fun a b c h1 h2 => tuple_le_trans _ _ _ h1 h2

/-! ## Weight facts and the evaluation bridge -/

theorem field_weight_pos : ∀ f : Field, 1 ≤ field_weight f := by
  intro f; cases f; simp [field_weight]

theorem inline_weight_pos : ∀ i : InlineFragment, 1 ≤ inline_weight i := by
  intro i; cases i; simp [inline_weight]

theorem sels_weight_perm {l l' : List Selection} (h : l.Perm l') :
    sels_weight l = sels_weight l' := by
  induction h with
  | nil => rfl
  | cons x _ ih => simp [sels_weight, ih]
  | swap x y l => simp [sels_weight]; omega
  | trans _ _ ih1 ih2 => omega

theorem sels_weight_sort_by (le : Selection → Selection → Bool) (l : List Selection) :
    sels_weight (sort_by le l) = sels_weight l :=
  sels_weight_perm (sort_by_perm le l)

theorem eval_bridge : ∀ fuel : Nat,
    (∀ set st, 4 * sels_weight set + 2 ≤ fuel →
      fss_fuel fuel set st = format_selection_set set st) ∧
    (∀ items st, 4 * sels_weight items + 1 ≤ fuel →
      gos_fuel fuel items st = go_selections items st) ∧
    (∀ field st, 4 * field_weight field ≤ fuel →
      ff_fuel fuel field st = format_field field st) ∧
    (∀ inline_frag st, 4 * inline_weight inline_frag ≤ fuel →
      fif_fuel fuel inline_frag st = format_inline_fragment inline_frag st) := by
  intro fuel
  induction fuel using Nat.strong_induction_on with
  | _ fuel ih =>
    cases fuel with
    | zero =>
      refine ⟨fun set st h => by omega, fun items st h => by omega,
        fun field st h => ?_, fun inline_frag st h => ?_⟩
      · have := field_weight_pos field; omega
      · have := inline_weight_pos inline_frag; omega
    | succ n =>
      have ihn := ih n (Nat.lt_succ_self n)
      refine ⟨?_, ?_, ?_, ?_⟩
      · intro set st h
        have hgo : ∀ st', gos_fuel n (sort_by selection_le set) st' =
            go_selections (sort_by selection_le set) st' := by
          intro st'
          exact ihn.2.1 _ st' (by rw [sels_weight_sort_by]; omega)
        simp only [fss_fuel, format_selection_set, hgo]
      · intro items st h
        cases items with
        | nil => simp only [gos_fuel, go_selections]
        | cons selection rest =>
          have hrest : ∀ st', gos_fuel n rest st' = go_selections rest st' := by
            intro st'
            refine ihn.2.1 rest st' ?_
            simp only [sels_weight] at h
            omega
          cases selection with
          | field f =>
            have hf : ff_fuel n f st = format_field f st := by
              refine ihn.2.2.1 f st ?_
              simp only [sels_weight, sel_weight] at h
              omega
            simp only [gos_fuel, go_selections, hf, hrest]
          | fragment_spread frag_spread =>
            simp only [gos_fuel, go_selections, hrest]
          | inline_fragment inline_frag =>
            have hi : fif_fuel n inline_frag st = format_inline_fragment inline_frag st := by
              refine ihn.2.2.2 inline_frag st ?_
              simp only [sels_weight, sel_weight] at h
              omega
            simp only [gos_fuel, go_selections, hi, hrest]
      · intro field st h
        cases field with
        | mk alias_ name arguments directives selection_set =>
          have hsel : ∀ st', fss_fuel n selection_set st' =
              format_selection_set selection_set st' := by
            intro st'
            refine (ihn.1 selection_set st' ?_)
            simp only [field_weight] at h
            omega
          cases alias_ <;> simp only [ff_fuel, format_field, hsel]
      · intro inline_frag st h
        cases inline_frag with
        | mk type_condition directives selection_set =>
          have hsel : ∀ st', fss_fuel n selection_set st' =
              format_selection_set selection_set st' := by
            intro st'
            refine (ihn.1 selection_set st' ?_)
            simp only [inline_weight] at h
            omega
          cases type_condition <;> simp only [fif_fuel, format_inline_fragment, hsel]

theorem format_selection_set_eval_eq (set : List Selection) (st : St) :
    format_selection_set_eval set st = format_selection_set set st :=
  (eval_bridge (4 * sels_weight set + 2)).1 set st (Nat.le_refl _)

theorem format_fragment_eval_eq (frag : FragmentDefinition) (st : St) :
    format_fragment_eval frag st = format_fragment frag st := by
  simp only [format_fragment_eval, format_fragment, format_selection_set_eval_eq]

theorem format_operation_type_eval_eq (keyword : String) (op : OperationBody) (st : St) :
    format_operation_type_eval keyword op st = format_operation_type keyword op st := by
  simp only [format_operation_type_eval, format_operation_type, format_selection_set_eval_eq]

theorem format_def_eval_eq (d : Definition) (st : St) :
    format_def_eval d st = format_def d st := by
  cases d with
  | operation op =>
    cases op <;>
      simp only [format_def_eval, format_def, format_operation, format_operation_type_eval_eq,
        format_selection_set_eval_eq]
  | fragment frag =>
    simp only [format_def_eval, format_def, format_fragment_eval_eq]

theorem format_doc_eval_eq (doc : Document) : ∀ st : St,
    format_doc_eval doc st = format_doc doc st := by
  induction doc with
  | nil => intro st; rfl
  | cons d rest ih =>
    intro st
    simp only [format_doc_eval, format_doc, format_def_eval_eq, ih]

theorem format_eval_eq (doc : Document) : format_eval doc = format doc := by
  simp only [format_eval, format, format_doc_eval_eq]

end query

/-! ## Generic sorting corollaries -/

theorem sort_sort (le : α → α → Bool)
    (htrans : ∀ a b c, le a b = true → le b c = true → le a c = true)
    (htotal : ∀ a b, le a b = true ∨ le b a = true) (l : List α) :
    sort_by le (sort_by le l) = sort_by le l :=
  sort_by_of_sorted le (sort_by_pairwise le htrans htotal l)

/-! ## Canonicalization preserves the printer's output (query side) -/

namespace query

theorem canon_selections_eq_map : ∀ l : List Selection,
    canon_selections l = l.map canon_selection := by
  intro l
  induction l with
  | nil => rfl
  | cons s rest ih => simp [canon_selections, ih]

theorem canon_selections_isEmpty (l : List Selection) :
    (canon_selections l).isEmpty = l.isEmpty := by
  cases l <;> simp [canon_selections]

theorem canon_weights : ∀ s : Selection, sel_weight (canon_selection s) = sel_weight s := by
  refine canon_selection.induct
    (fun f => field_weight (canon_field_q f) = field_weight f)
    (fun l => sels_weight (canon_selections l) = sels_weight l)
    (fun s => sel_weight (canon_selection s) = sel_weight s)
    (fun i => inline_weight (canon_inline i) = inline_weight i)
    ?_ ?_ ?_ ?_ ?_ ?_ ?_
  · intro alias_ name arguments directives selection_set ih
    simp [canon_field_q, field_weight, sels_weight_sort_by, ih]
  · intro type_condition directives selection_set ih
    simp [canon_inline, inline_weight, sels_weight_sort_by, ih]
  · intro f ih
    simp [canon_selection, sel_weight, ih]
  · intro frag_spread
    simp [canon_selection]
  · intro inline_frag ih
    simp [canon_selection, sel_weight, ih]
  · rfl
  · intro selection rest ih1 ih2
    simp [canon_selections, sels_weight, ih1, ih2]

theorem canon_sels_weight (l : List Selection) :
    sels_weight (canon_selections l) = sels_weight l := by
  induction l with
  | nil => rfl
  | cons s rest ih => simp [canon_selections, sels_weight, canon_weights, ih]

theorem canon_key (s : Selection) :
    selection_set_sort_key (canon_selection s) = selection_set_sort_key s := by
  cases s with
  | field f =>
    cases f with
    | mk alias_ name arguments directives selection_set =>
      simp only [canon_selection, canon_field_q, selection_set_sort_key]
      rw [sort_by_isEmpty, canon_selections_isEmpty]
  | fragment_spread frag_spread => rfl
  | inline_fragment i =>
    cases i with
    | mk type_condition directives selection_set =>
      simp [canon_selection, canon_inline, selection_set_sort_key]

theorem canon_selection_le (a b : Selection) :
    selection_le (canon_selection a) (canon_selection b) = selection_le a b := by
  simp [selection_le, canon_key]

/-- Sorting commutes with element-wise canonicalization (keys are
preserved). -/
theorem sortC_commute (l : List Selection) :
    sort_by selection_le (canon_selections l) = canon_selections (sort_by selection_le l) := by
  rw [canon_selections_eq_map, canon_selections_eq_map]
  exact map_sort_by selection_le selection_le canon_selection
    (fun a b => (canon_selection_le a b).symm) l

theorem canon_args_render (arguments : List (String × String)) :
    sort_by str_le ((sort_by arg_le arguments).map render_argument) =
      sort_by str_le (arguments.map render_argument) := by
  have h : (sort_by arg_le arguments).map render_argument =
      sort_by str_le (arguments.map render_argument) :=
    (map_sort_by str_le arg_le render_argument (fun a b => rfl) arguments).symm
  rw [h, sort_sort str_le str_le_trans str_le_total]

theorem canon_fuel_invariance : ∀ fuel : Nat,
    (∀ set st, fss_fuel fuel (sort_by selection_le (canon_selections set)) st =
      fss_fuel fuel set st) ∧
    (∀ items st, gos_fuel fuel (canon_selections items) st = gos_fuel fuel items st) ∧
    (∀ field st, ff_fuel fuel (canon_field_q field) st = ff_fuel fuel field st) ∧
    (∀ inline_frag st, fif_fuel fuel (canon_inline inline_frag) st =
      fif_fuel fuel inline_frag st) := by
  intro fuel
  induction fuel with
  | zero => exact ⟨fun _ _ => rfl, fun _ _ => rfl, fun _ _ => rfl, fun _ _ => rfl⟩
  | succ n ih =>
    refine ⟨?_, ?_, ?_, ?_⟩
    · intro set st
      have hgo : ∀ st', gos_fuel n (canon_selections (sort_by selection_le set)) st' =
          gos_fuel n (sort_by selection_le set) st' := fun st' => ih.2.1 _ st'
      simp only [fss_fuel, sort_by_isEmpty, canon_selections_isEmpty,
        sort_sort selection_le selection_le_trans selection_le_total, sortC_commute, hgo]
    · intro items st
      cases items with
      | nil => rfl
      | cons selection rest =>
        have hrest : ∀ st', gos_fuel n (canon_selections rest) st' =
            gos_fuel n rest st' := fun st' => ih.2.1 rest st'
        cases selection with
        | field f =>
          simp only [canon_selections, canon_selection, gos_fuel, ih.2.2.1, hrest]
        | fragment_spread frag_spread =>
          simp only [canon_selections, canon_selection, gos_fuel, hrest]
        | inline_fragment inline_frag =>
          simp only [canon_selections, canon_selection, gos_fuel, ih.2.2.2, hrest]
    · intro field st
      cases field with
      | mk alias_ name arguments directives selection_set =>
        have hsel : ∀ st', fss_fuel n (sort_by selection_le (canon_selections selection_set)) st' =
            fss_fuel n selection_set st' := fun st' => ih.1 selection_set st'
        simp only [canon_field_q, ff_fuel, sort_by_isEmpty, canon_selections_isEmpty,
          canon_args_render, hsel]
    · intro inline_frag st
      cases inline_frag with
      | mk type_condition directives selection_set =>
        have hsel : ∀ st', fss_fuel n (sort_by selection_le (canon_selections selection_set)) st' =
            fss_fuel n selection_set st' := fun st' => ih.1 selection_set st'
        simp only [canon_inline, fif_fuel, sort_by_isEmpty, canon_selections_isEmpty, hsel]

theorem canon_selection_set_eval (set : List Selection) (st : St) :
    format_selection_set_eval (sort_by selection_le (canon_selections set)) st =
      format_selection_set_eval set st := by
  have hw : sels_weight (sort_by selection_le (canon_selections set)) = sels_weight set := by
    rw [sels_weight_sort_by, canon_sels_weight]
  simp only [format_selection_set_eval, hw, (canon_fuel_invariance _).1]

theorem canon_format_def_eval (d : Definition) (st : St) :
    format_def_eval (canon_definition d) st = format_def_eval d st := by
  cases d with
  | operation op =>
    cases op with
    | selection_set set =>
      simp only [canon_definition, canon_operation, format_def_eval, canon_selection_set_eval]
    | query b =>
      simp only [canon_definition, canon_operation, format_def_eval,
        format_operation_type_eval, canon_operation_body, canon_selection_set_eval]
    | mutation b =>
      simp only [canon_definition, canon_operation, format_def_eval,
        format_operation_type_eval, canon_operation_body, canon_selection_set_eval]
    | subscription b =>
      simp only [canon_definition, canon_operation, format_def_eval,
        format_operation_type_eval, canon_operation_body, canon_selection_set_eval]
  | fragment frag =>
    simp only [canon_definition, format_def_eval, format_fragment_eval, canon_selection_set_eval]

theorem canon_format_query (doc : Document) :
    format (canon_document doc) = format doc := by
  rw [← format_eval_eq, ← format_eval_eq]
  have hdoc : ∀ st, format_doc_eval (canon_document doc) st = format_doc_eval doc st := by
    induction doc with
    | nil => intro st; rfl
    | cons d rest ih =>
      intro st
      simp only [canon_document, List.map_cons, format_doc_eval, canon_format_def_eval]
      cases format_def_eval d st with
      | error e => rfl
      | ok st' => exact ih st'
  simp only [format_eval, hdoc]

end query

/-! ## Canonicalization preserves the printer's output (schema side) -/

theorem canon_rendered_sort (f : α → String) (l : List α) :
    sort_by str_le ((sort_by (fun a b => str_le (f a) (f b)) l).map f) =
      sort_by str_le (l.map f) := by
  have h : (sort_by (fun a b => str_le (f a) (f b)) l).map f =
      sort_by str_le (l.map f) :=
    (map_sort_by str_le (fun a b => str_le (f a) (f b)) f (fun a b => rfl) l).symm
  rw [h, sort_sort str_le str_le_trans str_le_total]

namespace schema

theorem canon_format_field (field : Field) (st : St) :
    format_field (canon_field field) st = format_field field st := by
  cases field with
  | mk name description arguments field_type =>
    simp only [canon_field, format_field, sort_by_isEmpty,
      canon_rendered_sort render_field_argument]

theorem canon_fields_go (l : List Field) : ∀ st : St,
    fields_go (l.map canon_field) st = fields_go l st := by
  induction l with
  | nil => intro st; rfl
  | cons f rest ih =>
    intro st
    simp only [List.map_cons, fields_go, canon_format_field]
    cases format_field f st with
    | error e => rfl
    | ok st' => exact ih st'

theorem canon_format_fields (fields : List Field) (st : St) :
    format_fields (sort_by (fun a b => str_le a.name b.name) (fields.map canon_field)) st =
      format_fields fields st := by
  have hname : ∀ a b : Field, str_le a.name b.name = str_le (canon_field a).name (canon_field b).name := by
    intro a b
    cases a; cases b; rfl
  simp only [format_fields]
  rw [sort_sort (fun a b : Field => str_le a.name b.name)
        (fun a b c h1 h2 => str_le_trans a.name b.name c.name h1 h2)
        (fun a b => str_le_total a.name b.name),
      map_sort_by (fun a b : Field => str_le a.name b.name)
        (fun a b : Field => str_le a.name b.name) canon_field hname,
      canon_fields_go]

theorem canon_format_input_values (values : List InputValue) (st : St) :
    format_input_values (sort_by (fun a b => str_le a.name b.name) values) st =
      format_input_values values st := by
  simp only [format_input_values]
  rw [sort_sort (fun a b : InputValue => str_le a.name b.name)
        (fun a b c h1 h2 => str_le_trans a.name b.name c.name h1 h2)
        (fun a b => str_le_total a.name b.name)]

theorem canon_format_type (type_def : TypeDefinition) (st : St) :
    format_type (canon_type type_def) st = format_type type_def st := by
  cases type_def with
  | object name desc impls fields =>
    simp only [canon_type, format_type, canon_format_fields]
  | enum name desc values =>
    simp only [canon_type, format_type, sort_sort str_le str_le_trans str_le_total]
  | scalar name desc => rfl
  | interface name desc fields =>
    simp only [canon_type, format_type, canon_format_fields]
  | input_object name desc fields =>
    simp only [canon_type, format_type, canon_format_input_values]
  | union name desc types =>
    simp only [canon_type, format_type, sort_sort str_le str_le_trans str_le_total]

theorem canon_format_def (d : Definition) (st : St) :
    format_def (canon_definition d) st = format_def d st := by
  cases d with
  | schema_definition m q s => rfl
  | type_definition t => simp only [canon_definition, format_def, canon_format_type]
  | type_extension => rfl
  | directive_definition => rfl

theorem canon_format_schema (doc : Document) :
    format (canon_document doc) = format doc := by
  have hdoc : ∀ st, format_doc (canon_document doc) st = format_doc doc st := by
    induction doc with
    | nil => intro st; rfl
    | cons d rest ih =>
      intro st
      simp only [canon_document, List.map_cons, format_doc, canon_format_def]
      cases format_def d st with
      | error e => rfl
      | ok st' => exact ih st'
  simp only [format, hdoc]

end schema

/-! ## Text-level entry points

`format_query_text`/`format_schema_text` are the public
`format(contents: &str)` contracts with the external GraphQL parser passed
as an explicit parameter: the repository calls `graphql_parser`'s
`parse_query`/`parse_schema` here, which the spec excludes from the core as
an external collaborator.  A parser failure is the propagated Syntax
Error. -/

def format_query_text (p : String → Option query.Document) (contents : String) :
    Except Err String :=
  match p contents with
  | none => .error .parse_error
  | some doc => query.format doc

def format_schema_text (p : String → Option schema.Document) (contents : String) :
    Except Err String :=
  match p contents with
  | none => .error .parse_error
  | some doc => schema.format doc

/-- C1: for every fully supported, syntactically valid input (query document
or schema document), formatting is idempotent: `format (format x) = format x`
byte for byte.  The external parser enters through the hypotheses: `p x` is
the AST of the input, and re-parsing the printed output `s` yields exactly
the canonicalized document `canon_document d` (the printer only reorders
selections and argument lists, which is precisely what `canon_document`
records).  The content of the theorem is that the printer maps the
canonicalized document back to the very same text `s`. -/
theorem claim_c1_format_idempotent :
    (∀ (p : String → Option query.Document) (x s : String) (d : query.Document),
        p x = some d →
        format_query_text p x = .ok s →
        p s = some (query.canon_document d) →
        format_query_text p s = .ok s) ∧
    (∀ (p : String → Option schema.Document) (x s : String) (d : schema.Document),
        p x = some d →
        format_schema_text p x = .ok s →
        p s = some (schema.canon_document d) →
        format_schema_text p s = .ok s) := by
  constructor
  · intro p x s d hx hfmt hs
    simp only [format_query_text, hx] at hfmt
    simp only [format_query_text, hs, query.canon_format_query, hfmt]
  · intro p x s d hx hfmt hs
    simp only [format_schema_text, hx] at hfmt
    simp only [format_schema_text, hs, schema.canon_format_schema, hfmt]

/-- Concrete query document, raw input name and formatted output for the C1
witness. -/
def c1_query_doc : query.Document :=
  [.operation (.query ⟨some ("Q"), [], 0, [.field (.mk none ("a") [] 0 [])]⟩)]

def c1_query_out : String := ("query Q \x7b\n  a\n\x7d")

def c1_query_parse_fn (t : String) : Option query.Document :=
  if t = ("query Q \x7b a \x7d") then some c1_query_doc
  else if t = c1_query_out then some (query.canon_document c1_query_doc)
  else none

def c1_schema_doc : schema.Document := [.type_definition (.scalar ("S") none)]

def c1_schema_out : String := ("scalar S")

def c1_schema_parse_fn (t : String) : Option schema.Document :=
  if t = ("scalar   S") then some c1_schema_doc
  else if t = c1_schema_out then some (schema.canon_document c1_schema_doc)
  else none

/-- C1 witness: both halves of the idempotence theorem applied at a concrete
parser, input and document, with every hypothesis evaluated. -/
theorem claim_c1_format_idempotent_witness :
    (c1_query_parse_fn ("query Q \x7b a \x7d") = some c1_query_doc ∧
     format_query_text c1_query_parse_fn ("query Q \x7b a \x7d") = .ok c1_query_out ∧
     c1_query_parse_fn c1_query_out = some (query.canon_document c1_query_doc) ∧
     format_query_text c1_query_parse_fn c1_query_out = .ok c1_query_out) ∧
    (c1_schema_parse_fn ("scalar   S") = some c1_schema_doc ∧
     format_schema_text c1_schema_parse_fn ("scalar   S") = .ok c1_schema_out ∧
     c1_schema_parse_fn c1_schema_out = some (schema.canon_document c1_schema_doc) ∧
     format_schema_text c1_schema_parse_fn c1_schema_out = .ok c1_schema_out) := by
  have hq1 : c1_query_parse_fn ("query Q \x7b a \x7d") = some c1_query_doc := by rfl
  have hq2 : format_query_text c1_query_parse_fn ("query Q \x7b a \x7d") = .ok c1_query_out := by
    have h : query.format c1_query_doc = .ok c1_query_out := by
      rw [← query.format_eval_eq]; rfl
    simp only [format_query_text, hq1, h]
  have hq3 : c1_query_parse_fn c1_query_out = some (query.canon_document c1_query_doc) := by rfl
  have hs1 : c1_schema_parse_fn ("scalar   S") = some c1_schema_doc := by rfl
  have hs2 : format_schema_text c1_schema_parse_fn ("scalar   S") = .ok c1_schema_out := by
    have h : schema.format c1_schema_doc = .ok c1_schema_out := by rfl
    simp only [format_schema_text, hs1, h]
  have hs3 : c1_schema_parse_fn c1_schema_out = some (schema.canon_document c1_schema_doc) := by rfl
  exact ⟨⟨hq1, hq2, hq3,
      claim_c1_format_idempotent.1 c1_query_parse_fn ("query Q \x7b a \x7d") c1_query_out
        c1_query_doc hq1 hq2 hq3⟩,
    ⟨hs1, hs2, hs3,
      claim_c1_format_idempotent.2 c1_schema_parse_fn ("scalar   S") c1_schema_out
        c1_schema_doc hs1 hs2 hs3⟩⟩

/-- C2: the printed order of a non-empty selection set is ascending in the
tiered key computed by `selection_set_sort_key`: (1) leaf fields by name,
(2) fields with a nested selection by name, (3) fragment spreads by fragment
name, (4) inline fragments with a type condition by that type name, (5) bare
inline fragments (all sharing the key `(5, "")`, so any order among
themselves satisfies the bound).  The printer renders exactly the list
`sorted`, which is a permutation of the input in ascending key order. -/
theorem claim_c2_selection_order (set : List query.Selection) (st : St) (h : set ≠ []) :
    ∃ sorted : List query.Selection,
      sorted.Perm set ∧
      sorted.Pairwise (fun a b =>
        (query.selection_set_sort_key a).1 < (query.selection_set_sort_key b).1 ∨
        ((query.selection_set_sort_key a).1 = (query.selection_set_sort_key b).1 ∧
          str_le (query.selection_set_sort_key a).2 (query.selection_set_sort_key b).2 = true)) ∧
      query.format_selection_set set st =
        (match query.go_selections sorted ((st.push_str (" \x7b\n")).increment) with
         | .error e => .error e
         | .ok st' =>
           match st'.decrement with
           | .error e => .error e
           | .ok st' => .ok (st'.push ("\x7d\n"))) := by
  refine ⟨sort_by query.selection_le set, sort_by_perm _ _, ?_, ?_⟩
  · have hb := sort_by_pairwise query.selection_le
      query.selection_le_trans query.selection_le_total set
    refine hb.imp ?_
    intro a b hab
    simpa [query.selection_le, query.tuple_le, Bool.or_eq_true, Bool.and_eq_true,
      decide_eq_true_eq] using hab
  · cases set with
    | nil => exact absurd rfl h
    | cons s rest => simp only [query.format_selection_set, List.isEmpty_cons, Bool.false_eq_true,
        if_false]

/-- C2 witness: the ordering theorem applied to the selection set
`\x7b b a c \x7b x \x7d \x7d` of the spec's own example. -/
theorem claim_c2_selection_order_witness :
    ([query.Selection.field (.mk none ("b") [] 0 []),
      query.Selection.field (.mk none ("a") [] 0 []),
      query.Selection.field (.mk none ("c") [] 0 [.field (.mk none ("x") [] 0 [])])] ≠
        ([] : List query.Selection)) ∧
    (∃ sorted : List query.Selection,
      sorted.Perm [query.Selection.field (.mk none ("b") [] 0 []),
        query.Selection.field (.mk none ("a") [] 0 []),
        query.Selection.field (.mk none ("c") [] 0 [.field (.mk none ("x") [] 0 [])])] ∧
      sorted.Pairwise (fun a b =>
        (query.selection_set_sort_key a).1 < (query.selection_set_sort_key b).1 ∨
        ((query.selection_set_sort_key a).1 = (query.selection_set_sort_key b).1 ∧
          str_le (query.selection_set_sort_key a).2 (query.selection_set_sort_key b).2 = true)) ∧
      query.format_selection_set [query.Selection.field (.mk none ("b") [] 0 []),
          query.Selection.field (.mk none ("a") [] 0 []),
          query.Selection.field (.mk none ("c") [] 0 [.field (.mk none ("x") [] 0 [])])] St.new =
        (match query.go_selections sorted ((St.new.push_str (" \x7b\n")).increment) with
         | .error e => .error e
         | .ok st' =>
           match st'.decrement with
           | .error e => .error e
           | .ok st' => .ok (st'.push ("\x7d\n")))) :=
  ⟨by simp, claim_c2_selection_order _ St.new (by simp)⟩

/-- C3: the claim says any directive on an operation, fragment definition,
field, fragment spread or inline fragment aborts formatting.  The code
checks every one of those nodes with `todo_field!` except fragment
definitions (`format_fragment` never reads `frag.directives`), so a
fragment definition carrying a directive is formatted with the directive
silently dropped — contradicting both the claim and the all-or-nothing
error design the rest of the file implements.  First conjunct: the fragment
with one directive formats successfully; remaining conjuncts: every sibling
node kind does abort. -/
theorem claim_c3_fragment_directives_dropped :
    query.format [.fragment ⟨("F"), ("T"), 1, [.field (.mk none ("a") [] 0 [])]⟩]
      = .ok ("fragment F on T \x7b\n  a\n\x7d") ∧
    query.format [.operation (.query ⟨some ("Q"), [], 1, [.field (.mk none ("a") [] 0 [])]⟩)]
      = .error (.todo ("type.directives")) ∧
    query.format [.operation (.query ⟨some ("Q"), [], 0, [.field (.mk none ("a") [] 1 [])]⟩)]
      = .error (.todo ("field.directives")) ∧
    query.format [.operation (.query ⟨some ("Q"), [], 0, [.fragment_spread ⟨("F"), 1⟩]⟩)]
      = .error (.todo ("frag_spread.directives")) ∧
    query.format [.operation (.query ⟨some ("Q"), [], 0,
        [.inline_fragment (.mk none 1 [.field (.mk none ("a") [] 0 [])])]⟩)]
      = .error (.todo ("inline_frag.directives")) := by
  refine ⟨?_, ?_, ?_, ?_, ?_⟩ <;> (rw [← query.format_eval_eq]; rfl)

namespace query

/-- The rendering of a field once its argument list has been rendered and
ordered: `field_args_rendering alias name args sels` is `format_field` with
the sorted rendered argument strings `args` abstracted out. -/
def field_args_rendering (alias_ : Option String) (name : String) (args : List String)
    (selection_set : List Selection) (st : St) : Except Err St :=
  let st :=
    match alias_ with
    | some alias_ => st.push (alias_ ++ (": ") ++ name)
    | none => st.push name
  let res : Except Err St :=
    if args.isEmpty then .ok st
    else
      let st := st.push_str ("(")
      let current_line_length := st.current_line_length
      let args_joined := String.intercalate (", ") args ++ (")")
      let line_length_with_args := current_line_length + args_joined.length
      if line_length_with_args > MAX_LINE_LENGTH then
        let st := st.increment
        let st := st.push_str ("\n")
        let st := args.foldl (fun st arg => st.push (arg ++ (",\n"))) st
        match st.decrement with
        | .error e => .error e
        | .ok st => .ok (st.push (")"))
      else .ok (st.push_str args_joined)
  match res with
  | .error e => .error e
  | .ok st =>
    if selection_set.isEmpty then .ok (st.push_str ("\n"))
    else format_selection_set selection_set st

theorem format_field_args (alias_ : Option String) (name : String)
    (arguments : List (String × String)) (selection_set : List Selection) (st : St) :
    format_field (.mk alias_ name arguments 0 selection_set) st =
      field_args_rendering alias_ name (sort_by str_le (arguments.map render_argument))
        selection_set st := by
  have hempty : (sort_by str_le (arguments.map render_argument)).isEmpty = arguments.isEmpty := by
    rw [sort_by_isEmpty]
    cases arguments <;> simp
  cases alias_ <;>
    simp only [format_field, field_args_rendering, hempty, ne_eq, not_true_eq_false,
      if_false, reduceIte]

end query

/-- C4 amended: the printed arguments of a field are the rendered
`name: value` strings in ascending lexicographic (byte) order of that whole
rendered text — so arguments with equal names are ordered by their value
text, not by source position.  (The claim's original tie rule, "ties keep
source order", is refuted by `claim_c4_counterexample`.) -/
theorem claim_c4_argument_order (alias_ : Option String) (name : String)
    (arguments : List (String × String)) (selection_set : List query.Selection)
    (st : St) (hargs : arguments ≠ []) :
    ∃ args : List String,
      args.Perm (arguments.map query.render_argument) ∧
      args.Pairwise (fun a b => str_le a b = true) ∧
      query.format_field (.mk alias_ name arguments 0 selection_set) st =
        query.field_args_rendering alias_ name args selection_set st :=
  ⟨sort_by str_le (arguments.map query.render_argument),
    sort_by_perm _ _,
    sort_by_pairwise _ str_le_trans str_le_total _,
    query.format_field_args alias_ name arguments selection_set st⟩

/-- C4 counterexample: the field `user(a: 2, a: 1)` has two arguments whose
names compare equal; the claim requires them to keep source order
(`a: 2` before `a: 1`), but the printer sorts the whole rendered strings and
emits `user(a: 1, a: 2)`. -/
theorem claim_c4_counterexample :
    query.format [.operation (.query ⟨some ("Q"), [], 0,
        [.field (.mk none ("user") [(("a"), ("2")), (("a"), ("1"))] 0 [])]⟩)]
      = .ok ("query Q \x7b\n  user(a: 1, a: 2)\n\x7d") ∧
    ("query Q \x7b\n  user(a: 1, a: 2)\n\x7d" : String) ≠
      ("query Q \x7b\n  user(a: 2, a: 1)\n\x7d") := by
  constructor
  · rw [← query.format_eval_eq]; rfl
  · decide

/-- C4 witness: the amended ordering theorem applied to the spec's example
`user(x: 1, h: 1, a: 1)`. -/
theorem claim_c4_argument_order_witness :
    ([(("x"), ("1")), (("h"), ("1")), (("a"), ("1"))] ≠ ([] : List (String × String))) ∧
    (∃ args : List String,
      args.Perm ([(("x"), ("1")), (("h"), ("1")), (("a"), ("1"))].map query.render_argument) ∧
      args.Pairwise (fun a b => str_le a b = true) ∧
      query.format_field (.mk none ("user") [(("x"), ("1")), (("h"), ("1")), (("a"), ("1"))] 0 [])
          St.new =
        query.field_args_rendering none ("user") args [] St.new) :=
  ⟨by simp, claim_c4_argument_order none ("user") _ [] St.new (by simp)⟩

/-- One `keyword: TypeName` root-type line of a schema block (empty when the
root type is not declared), at one indent level below `i`. -/
def opt_root_line (i : Indentation) (kw : String) : Option String → String
  | some name => (⟨i.size, i.count + 1⟩ : Indentation).spaces ++ kw ++ name ++ ("\n")
  | none => ""

/-- C9: a printed schema block is the fixed keyword line followed by one
`keyword: TypeName` line per declared root type, always emitted in the order
mutation, query, subscription.  (The parser's `SchemaDefinition` AST holds
one optional slot per root type, so the declaration order of the input
cannot even reach the printer; the emission order is fixed by the code.) -/
theorem claim_c9_schema_block_order (m q sub : Option String) (st : St) :
    schema.format_def (.schema_definition m q sub) st =
      .ok ⟨st.indent, ⟨st.out.buf ++ st.indent.spaces ++ ("schema \x7b\n") ++
        opt_root_line st.indent ("mutation: ") m ++
        opt_root_line st.indent ("query: ") q ++
        opt_root_line st.indent ("subscription: ") sub ++
        st.indent.spaces ++ ("\x7d\n\n")⟩⟩ := by
  cases m <;> cases q <;> cases sub <;>
    simp [schema.format_def, opt_root_line, St.push, St.push_str, St.increment, St.decrement,
      Indentation.spaces, String.append_assoc]

namespace query

/-- The tail of `format_field` after the argument list: a leaf field ends
with a newline, otherwise the nested selection set is rendered. -/
def continue_field (selection_set : List Selection) (st : St) : Except Err St :=
  if selection_set.isEmpty then .ok (st.push_str ("\n")) else format_selection_set selection_set st

end query


def str_concat : List String → String
  | [] => ("")
  | s :: rest => s ++ str_concat rest

@[simp] theorem St.indent_push (st : St) (s : String) : (st.push s).indent = st.indent := rfl

@[simp] theorem St.indent_push_str (st : St) (s : String) : (st.push_str s).indent = st.indent := rfl

@[simp] theorem St.indent_increment (st : St) :
    (st.increment).indent = ⟨st.indent.size, st.indent.count + 1⟩ := rfl

@[simp] theorem St.out_push (st : St) (s : String) :
    (st.push s).out = ⟨st.out.buf ++ st.indent.spaces ++ s⟩ := rfl

@[simp] theorem St.out_push_str (st : St) (s : String) :
    (st.push_str s).out = ⟨st.out.buf ++ s⟩ := rfl

@[simp] theorem St.out_increment (st : St) : (st.increment).out = st.out := rfl

theorem decrement_eq (sz c : Nat) (o : Output) :
    (⟨⟨sz, c + 1⟩, o⟩ : St).decrement = .ok ⟨⟨sz, c⟩, o⟩ := by
  simp [St.decrement]

/-- The multi-line argument rendering: after the newline following `"("`,
each argument on its own line one indent level below `i` followed by a
comma, then the closing parenthesis alone at indent `i`. -/
def wrapped_args_text (i : Indentation) (args : List String) : String :=
  str_concat (args.map (fun arg => (⟨i.size, i.count + 1⟩ : Indentation).spaces ++ arg ++ (",\n")))
    ++ i.spaces ++ (")")

theorem foldl_push_comma (args : List String) : ∀ st : St,
    args.foldl (fun st arg => st.push (arg ++ (",\n"))) st =
      ⟨st.indent, ⟨st.out.buf ++
        str_concat (args.map (fun arg => st.indent.spaces ++ arg ++ (",\n")))⟩⟩ := by
  induction args with
  | nil => intro st; simp [str_concat]
  | cons a rest ih =>
    intro st
    rw [List.foldl_cons, ih]
    simp [St.push, str_concat, String.append_assoc]

namespace schema

/-- The tail of the schema `format_field`: `": Type"` and a newline. -/
def finish_field (field_type : String) (st : St) : Except Err St :=
  .ok (st.push_str ((": ") ++ field_type ++ ("\n")))

end schema

/-- C7: the line-wrap policy, for query fields and schema fields alike.
With `L` the current line length up to and including the opening parenthesis
plus the length of the comma-joined argument text and closing parenthesis:
if `L` exceeds `MAX_LINE_LENGTH = 80` the arguments are emitted one per
line at one extra indent level, each followed by a comma, and the closing
parenthesis alone at the field's own indent; otherwise the comma-joined
arguments and the closing parenthesis stay on the current line. -/
theorem claim_c7_line_wrap :
    MAX_LINE_LENGTH = 80 ∧
    (∀ (alias_ : Option String) (name : String) (arguments : List (String × String))
        (selection_set : List query.Selection) (st : St), arguments ≠ [] →
      (query.format_field (.mk alias_ name arguments 0 selection_set) st =
        (let st1 := match alias_ with
          | some alias_ => st.push (alias_ ++ (": ") ++ name)
          | none => st.push name
         let stP := st1.push_str ("(")
         let args := sort_by str_le (arguments.map query.render_argument)
         let args_joined := String.intercalate (", ") args ++ (")")
         if stP.current_line_length + args_joined.length > MAX_LINE_LENGTH then
           query.continue_field selection_set
             ⟨stP.indent, ⟨stP.out.buf ++ ("\n") ++ wrapped_args_text stP.indent args⟩⟩
         else
           query.continue_field selection_set (stP.push_str args_joined)))) ∧
    (∀ (field : schema.Field) (st : St), field.arguments ≠ [] →
      (schema.format_field field st =
        (let stP := ((schema.push_desc field.description st).push field.name).push_str ("(")
         let args := sort_by str_le (field.arguments.map schema.render_field_argument)
         let args_joined := String.intercalate (", ") args ++ (")")
         if stP.current_line_length + args_joined.length > MAX_LINE_LENGTH then
           schema.finish_field field.field_type
             ⟨stP.indent, ⟨stP.out.buf ++ ("\n") ++ wrapped_args_text stP.indent args⟩⟩
         else
           schema.finish_field field.field_type (stP.push_str args_joined)))) := by
  refine ⟨rfl, ?_, ?_⟩
  · intro alias_ name arguments selection_set st hargs
    obtain ⟨⟨sz, c⟩, ⟨buf⟩⟩ := st
    rw [query.format_field_args]
    have hne : (sort_by str_le (arguments.map query.render_argument)).isEmpty = false := by
      rw [sort_by_isEmpty]
      cases arguments with
      | nil => exact absurd rfl hargs
      | cons a rest => simp
    cases alias_ with
    | none =>
      simp only [query.field_args_rendering, hne, Bool.false_eq_true, if_false]
      by_cases hgt : ((((⟨⟨sz, c⟩, ⟨buf⟩⟩ : St).push name).push_str ("(")).current_line_length +
          (String.intercalate (", ") (sort_by str_le (arguments.map query.render_argument)) ++
            (")")).length > MAX_LINE_LENGTH)
      · simp only [if_pos hgt, foldl_push_comma, St.indent_push, St.indent_push_str,
          St.indent_increment, St.out_push, St.out_push_str, St.out_increment, decrement_eq,
          query.continue_field]
        simp [St.push, Indentation.spaces, wrapped_args_text, String.append_assoc]
      · simp only [if_neg hgt, query.continue_field]
    | some a =>
      simp only [query.field_args_rendering, hne, Bool.false_eq_true, if_false]
      by_cases hgt : ((((⟨⟨sz, c⟩, ⟨buf⟩⟩ : St).push (a ++ (": ") ++ name)).push_str
            ("(")).current_line_length +
          (String.intercalate (", ") (sort_by str_le (arguments.map query.render_argument)) ++
            (")")).length > MAX_LINE_LENGTH)
      · simp only [if_pos hgt, foldl_push_comma, St.indent_push, St.indent_push_str,
          St.indent_increment, St.out_push, St.out_push_str, St.out_increment, decrement_eq,
          query.continue_field]
        simp [St.push, Indentation.spaces, wrapped_args_text, String.append_assoc]
      · simp only [if_neg hgt, query.continue_field]
  · intro field st hargs
    obtain ⟨⟨sz, c⟩, ⟨buf⟩⟩ := st
    cases field with
    | mk name description arguments field_type =>
      have hne : arguments.isEmpty = false := by
        cases arguments with
        | nil => exact absurd rfl hargs
        | cons a rest => simp
      simp only [schema.format_field, hne, Bool.false_eq_true, if_false]
      by_cases hgt : ((((schema.push_desc description (⟨⟨sz, c⟩, ⟨buf⟩⟩ : St)).push
            name).push_str ("(")).current_line_length +
          (String.intercalate (", ")
            (sort_by str_le (arguments.map schema.render_field_argument)) ++
            (")")).length > MAX_LINE_LENGTH)
      · simp only [if_pos hgt, foldl_push_comma, St.indent_push, St.indent_push_str,
          St.indent_increment, St.out_push, St.out_push_str, St.out_increment,
          schema.finish_field]
        cases description <;>
          (simp only [schema.push_desc, St.indent_push, decrement_eq]
           simp [St.push, Indentation.spaces, wrapped_args_text, String.append_assoc])
      · simp only [if_neg hgt, schema.finish_field]

/-- C7 witness: the wrap-policy theorem applied to a concrete one-argument
query field and a concrete one-argument schema field. -/
theorem claim_c7_line_wrap_witness :
    ([(("a"), ("1"))] ≠ ([] : List (String × String))) ∧
    (query.format_field (.mk none ("user") [(("a"), ("1"))] 0 []) St.new =
      (let st1 := St.new.push ("user")
       let stP := st1.push_str ("(")
       let args := sort_by str_le ([(("a"), ("1"))].map query.render_argument)
       let args_joined := String.intercalate (", ") args ++ (")")
       if stP.current_line_length + args_joined.length > MAX_LINE_LENGTH then
         query.continue_field []
           ⟨stP.indent, ⟨stP.out.buf ++ ("\n") ++ wrapped_args_text stP.indent args⟩⟩
       else
         query.continue_field [] (stP.push_str args_joined))) ∧
    (([⟨("slug"), none, ("String")⟩] : List schema.InputValue) ≠ []) ∧
    (schema.format_field ⟨("user"), none, [⟨("slug"), none, ("String")⟩], ("User")⟩ St.new =
      (let stP := ((schema.push_desc none St.new).push ("user")).push_str ("(")
       let args := sort_by str_le ([(⟨("slug"), none, ("String")⟩ : schema.InputValue)].map
         schema.render_field_argument)
       let args_joined := String.intercalate (", ") args ++ (")")
       if stP.current_line_length + args_joined.length > MAX_LINE_LENGTH then
         schema.finish_field ("User")
           ⟨stP.indent, ⟨stP.out.buf ++ ("\n") ++ wrapped_args_text stP.indent args⟩⟩
       else
         schema.finish_field ("User") (stP.push_str args_joined))) :=
  ⟨by simp,
   claim_c7_line_wrap.2.1 none ("user") [(("a"), ("1"))] [] St.new (by simp),
   by simp,
   claim_c7_line_wrap.2.2 ⟨("user"), none, [⟨("slug"), none, ("String")⟩], ("User")⟩ St.new
     (by simp)⟩

namespace schema

/-- The text `format_input_value` appends for one entry at indent `i`:
optional quoted description line, then `name: type` (no newline). -/
def iv_text (i : Indentation) (v : InputValue) : String :=
  (match v.description with
   | some desc => i.spaces ++ ("\"") ++ desc ++ ("\"\n")
   | none => ("")) ++ i.spaces ++ v.name ++ (": ") ++ v.value_type

theorem format_input_value_append (v : InputValue) (st : St) :
    format_input_value v st = ⟨st.indent, ⟨st.out.buf ++ iv_text st.indent v⟩⟩ := by
  cases hv : v.description <;>
    simp [format_input_value, push_desc, iv_text, hv, St.push, String.append_assoc]

/-- The separator pushed after a `First`/`Middle` entry. -/
def iv_sep (has_docs no_docs : Bool) : String :=
  if has_docs then ("\n\n") else if no_docs then ("\n") else ("")

/-- Rendered text of the entries at positions `Middle`/`Last` (every entry
except a `First`/`Only` one): each non-final entry is followed by
`iv_sep`, the final one by a single newline. -/
def input_block_rest (i : Indentation) (hd nd : Bool) : List InputValue → String
  | [] => ("")
  | [v] => iv_text i v ++ ("\n")
  | v :: rest => iv_text i v ++ iv_sep hd nd ++ input_block_rest i hd nd rest

/-- Rendered text of a whole input-value block at indent `i`: a single
(`Only`) entry is followed by a newline only in the no-descriptions
configuration; otherwise the first entry is followed by `iv_sep` and the
rest by `input_block_rest`. -/
def input_block (i : Indentation) (hd nd : Bool) : List InputValue → String
  | [] => ("")
  | [v] => iv_text i v ++ (if nd then ("\n") else (""))
  | v :: rest => iv_text i v ++ iv_sep hd nd ++ input_block_rest i hd nd rest

theorem input_values_go_rest (hd nd : Bool) : ∀ (l : List InputValue) (st : St), l ≠ [] →
    input_values_go hd nd (with_position_rest l) st =
      ⟨st.indent, ⟨st.out.buf ++ input_block_rest st.indent hd nd l⟩⟩ := by
  intro l
  induction l with
  | nil => intro st h; exact absurd rfl h
  | cons v rest ih =>
    intro st _
    cases rest with
    | nil =>
      cases nd <;>
        simp [with_position_rest, input_values_go, format_input_value_append,
          input_block_rest, St.push_str, String.append_assoc]
    | cons v' rest' =>
      have hne : v' :: rest' ≠ [] := by simp
      simp only [with_position_rest, input_values_go, format_input_value_append,
        input_block_rest, ih _ hne]
      cases hd <;> cases nd <;>
        simp [iv_sep, St.push_str, String.append_assoc]

theorem input_values_go_spec (hd nd : Bool) (values : List InputValue) (st : St) :
    input_values_go hd nd (with_position values) st =
      ⟨st.indent, ⟨st.out.buf ++ input_block st.indent hd nd values⟩⟩ := by
  cases values with
  | nil => simp [with_position, input_values_go, input_block]
  | cons v rest =>
    cases rest with
    | nil =>
      cases nd <;>
        simp [with_position, input_values_go, format_input_value_append, input_block,
          St.push_str, String.append_assoc]
    | cons v' rest' =>
      have hne : v' :: rest' ≠ [] := by simp
      simp only [with_position, input_values_go, format_input_value_append,
        input_block, input_values_go_rest hd nd _ _ hne]
      cases hd <;> cases nd <;>
        simp [iv_sep, St.push_str, String.append_assoc]

/-- The `assert!(!(has_docs && no_docs))` in `format_input_values` is a
tautology: `has_docs` (some entry described) and `no_docs` (no entry
described) are never simultaneously true, so the assertion can never fire,
on any input. -/
theorem input_values_assert_vacuous (values : List InputValue) :
    (values.any (fun v => v.description.isSome) &&
      values.all (fun v => v.description.isNone)) = false := by
  induction values with
  | nil => rfl
  | cons v rest ih =>
    cases hv : v.description with
    | none => simpa [List.any_cons, List.all_cons, hv] using ih
    | some d => simp [List.any_cons, List.all_cons, hv]

/-- Full characterization of `format_input_values`: sort by name, never
fail, and append the block text determined by the `has_docs`/`no_docs`
configuration at one extra indent level. -/
theorem format_input_values_spec (values : List InputValue) (st : St) :
    format_input_values values st =
      .ok ⟨st.indent, ⟨st.out.buf ++
        input_block ⟨st.indent.size, st.indent.count + 1⟩
          ((sort_by (fun a b => str_le a.name b.name) values).any (fun v => v.description.isSome))
          ((sort_by (fun a b => str_le a.name b.name) values).all (fun v => v.description.isNone))
          (sort_by (fun a b => str_le a.name b.name) values)⟩⟩ := by
  obtain ⟨⟨sz, c⟩, ⟨buf⟩⟩ := st
  simp only [format_input_values, input_values_assert_vacuous, Bool.false_eq_true, if_false,
    St.increment, input_values_go_spec, decrement_eq]

end schema

/-- C6 amended: a mixed-description input-value block is NOT rejected.  The
`assert!(!(has_docs && no_docs))` guard is vacuously true (first conjunct:
no input can make `format_input_values` fail), and a mixed block is
formatted with the described-block spacing (`input_block` at
`has_docs = true, no_docs = false`): every entry except the last is
followed by a blank line, the last by a single newline. -/
theorem claim_c6_mixed_block_formats :
    (∀ (values : List schema.InputValue) (st : St),
        schema.format_input_values values st ≠ .error .assert_failed) ∧
    (∀ (values : List schema.InputValue) (st : St),
        (∃ v ∈ values, v.description.isSome = true) →
        (∃ v ∈ values, v.description = none) →
        schema.format_input_values values st =
          .ok ⟨st.indent, ⟨st.out.buf ++
            schema.input_block ⟨st.indent.size, st.indent.count + 1⟩ true false
              (sort_by (fun a b => str_le a.name b.name) values)⟩⟩) := by
  constructor
  · intro values st
    rw [schema.format_input_values_spec]
    simp
  · intro values st hsome _
    obtain ⟨v, hv_mem, hv⟩ := hsome
    have hd : (sort_by (fun a b : schema.InputValue => str_le a.name b.name) values).any
        (fun v => v.description.isSome) = true :=
      List.any_eq_true.mpr ⟨v, (sort_by_perm _ _).mem_iff.mpr hv_mem, hv⟩
    have nd : (sort_by (fun a b : schema.InputValue => str_le a.name b.name) values).all
        (fun v => v.description.isNone) = false := by
      refine Bool.eq_false_iff.mpr ?_
      intro hall
      have := List.all_eq_true.mp hall v ((sort_by_perm _ _).mem_iff.mpr hv_mem)
      simp only [Option.isNone_iff_eq_none] at this
      rw [this] at hv
      simp at hv
    rw [schema.format_input_values_spec, hd, nd]

/-- C6 counterexample: the repository's own `test_input_value` fixture
`UserInput2` is a mixed block (`id` described, `slug` not); the claim says
formatting must fail with an unsupported-construct error, but it succeeds
and produces output (which the repository's test suite itself expects). -/
theorem claim_c6_counterexample :
    schema.format [.type_definition (.input_object ("UserInput2") none
        [⟨("id"), some ("A field"), ("Int")⟩, ⟨("slug"), none, ("String!")⟩])]
      = .ok ("input UserInput2 \x7b\n  \"A field\"\n  id: Int\n\n  slug: String!\n\x7d") := by
  rfl

/-- C6 witness: the amended theorem applied to the concrete mixed block of
the counterexample. -/
theorem claim_c6_mixed_block_formats_witness :
    (∃ v ∈ [(⟨("id"), some ("A field"), ("Int")⟩ : schema.InputValue),
        ⟨("slug"), none, ("String!")⟩], v.description.isSome = true) ∧
    (∃ v ∈ [(⟨("id"), some ("A field"), ("Int")⟩ : schema.InputValue),
        ⟨("slug"), none, ("String!")⟩], v.description = none) ∧
    schema.format_input_values
        [⟨("id"), some ("A field"), ("Int")⟩, ⟨("slug"), none, ("String!")⟩] St.new =
      .ok ⟨St.new.indent, ⟨St.new.out.buf ++
        schema.input_block ⟨St.new.indent.size, St.new.indent.count + 1⟩ true false
          (sort_by (fun a b => str_le a.name b.name)
            [⟨("id"), some ("A field"), ("Int")⟩, ⟨("slug"), none, ("String!")⟩])⟩⟩ :=
  ⟨⟨⟨("id"), some ("A field"), ("Int")⟩, by simp, by simp⟩,
   ⟨⟨("slug"), none, ("String!")⟩, by simp, rfl⟩,
   claim_c6_mixed_block_formats.2 _ St.new
     ⟨⟨("id"), some ("A field"), ("Int")⟩, by simp, by simp⟩
     ⟨⟨("slug"), none, ("String!")⟩, by simp, rfl⟩⟩

/-- C8 amended: in a non-mixed input-value block, if every entry carries a
description then every entry except the LAST is followed by a blank line
and the last by a single newline (a single-entry described block gets no
trailing newline at all, so the closing brace lands on its line); if no
entry carries a description, every entry is followed by a single newline.
The claim's "every entry is followed by a blank line" fails for the last
entry (`claim_c8_counterexample`). -/
theorem claim_c8_input_value_spacing :
    (∀ (values : List schema.InputValue) (st : St), values ≠ [] →
        (∀ v ∈ values, v.description.isSome = true) →
        schema.format_input_values values st =
          .ok ⟨st.indent, ⟨st.out.buf ++
            schema.input_block ⟨st.indent.size, st.indent.count + 1⟩ true false
              (sort_by (fun a b => str_le a.name b.name) values)⟩⟩) ∧
    (∀ (values : List schema.InputValue) (st : St),
        (∀ v ∈ values, v.description = none) →
        schema.format_input_values values st =
          .ok ⟨st.indent, ⟨st.out.buf ++
            schema.input_block ⟨st.indent.size, st.indent.count + 1⟩ false true
              (sort_by (fun a b => str_le a.name b.name) values)⟩⟩) := by
  constructor
  · intro values st hne hall
    obtain ⟨v, hv_mem⟩ : ∃ v, v ∈ values := by
      cases values with
      | nil => exact absurd rfl hne
      | cons a rest => exact ⟨a, by simp⟩
    have hd : (sort_by (fun a b : schema.InputValue => str_le a.name b.name) values).any
        (fun v => v.description.isSome) = true :=
      List.any_eq_true.mpr ⟨v, (sort_by_perm _ _).mem_iff.mpr hv_mem, hall v hv_mem⟩
    have nd : (sort_by (fun a b : schema.InputValue => str_le a.name b.name) values).all
        (fun v => v.description.isNone) = false := by
      refine Bool.eq_false_iff.mpr ?_
      intro hallnone
      have h1 := List.all_eq_true.mp hallnone v ((sort_by_perm _ _).mem_iff.mpr hv_mem)
      have h2 := hall v hv_mem
      simp only [Option.isNone_iff_eq_none] at h1
      rw [h1] at h2
      simp at h2
    rw [schema.format_input_values_spec, hd, nd]
  · intro values st hall
    have hd : (sort_by (fun a b : schema.InputValue => str_le a.name b.name) values).any
        (fun v => v.description.isSome) = false := by
      refine Bool.eq_false_iff.mpr ?_
      intro hany
      obtain ⟨v, hv_mem, hv⟩ := List.any_eq_true.mp hany
      rw [hall v ((sort_by_perm _ _).mem_iff.mp hv_mem)] at hv
      simp at hv
    have nd : (sort_by (fun a b : schema.InputValue => str_le a.name b.name) values).all
        (fun v => v.description.isNone) = true :=
      List.all_eq_true.mpr (fun v hv_mem => by
        rw [hall v ((sort_by_perm _ _).mem_iff.mp hv_mem)]
        rfl)
    rw [schema.format_input_values_spec, hd, nd]

/-- C8 counterexample: an input block whose two entries both carry a
description.  The claim requires EVERY entry to be followed by a blank
line, but the printer follows the last entry (`slug`) with a single
newline before the closing brace (exactly what the repository's own
`test_input_value` test expects). -/
theorem claim_c8_counterexample :
    schema.format [.type_definition (.input_object ("X") none
        [⟨("id"), some ("a"), ("Int")⟩, ⟨("slug"), some ("b"), ("String!")⟩])]
      = .ok ("input X \x7b\n  \"a\"\n  id: Int\n\n  \"b\"\n  slug: String!\n\x7d") ∧
    ("input X \x7b\n  \"a\"\n  id: Int\n\n  \"b\"\n  slug: String!\n\x7d" : String) ≠
      ("input X \x7b\n  \"a\"\n  id: Int\n\n  \"b\"\n  slug: String!\n\n\x7d") := by
  exact ⟨rfl, by decide⟩

/-- C8 witness: the amended spacing theorem applied to a concrete
all-described block and a concrete no-descriptions block. -/
theorem claim_c8_input_value_spacing_witness :
    (([(⟨("id"), some ("a"), ("Int")⟩ : schema.InputValue)] : List schema.InputValue) ≠ []) ∧
    (∀ v ∈ [(⟨("id"), some ("a"), ("Int")⟩ : schema.InputValue)], v.description.isSome = true) ∧
    schema.format_input_values [(⟨("id"), some ("a"), ("Int")⟩ : schema.InputValue)] St.new =
      .ok ⟨St.new.indent, ⟨St.new.out.buf ++
        schema.input_block ⟨St.new.indent.size, St.new.indent.count + 1⟩ true false
          (sort_by (fun a b => str_le a.name b.name)
            [(⟨("id"), some ("a"), ("Int")⟩ : schema.InputValue)])⟩⟩ ∧
    (∀ v ∈ [(⟨("id"), none, ("Int")⟩ : schema.InputValue)], v.description = none) ∧
    schema.format_input_values [(⟨("id"), none, ("Int")⟩ : schema.InputValue)] St.new =
      .ok ⟨St.new.indent, ⟨St.new.out.buf ++
        schema.input_block ⟨St.new.indent.size, St.new.indent.count + 1⟩ false true
          (sort_by (fun a b => str_le a.name b.name)
            [(⟨("id"), none, ("Int")⟩ : schema.InputValue)])⟩⟩ :=
  ⟨by simp, by simp,
   claim_c8_input_value_spacing.1 _ St.new (by simp) (by simp),
   by simp,
   claim_c8_input_value_spacing.2 _ St.new (by simp)⟩

/-! ## Trim idempotence and suffix-shape helpers -/

theorem str_append_empty (s : String) : s ++ ("") = s := by
  cases s with
  | mk data => show String.mk (data ++ []) = String.mk data; rw [List.append_nil]

theorem dropWhile_idem (p : α → Bool) (l : List α) :
    (l.dropWhile p).dropWhile p = l.dropWhile p := by
  induction l with
  | nil => rfl
  | cons a rest ih =>
    by_cases h : p a = true
    · simp [List.dropWhile_cons, h, ih]
    · simp [List.dropWhile_cons, h]

theorem dropWhile_head_not (p : α → Bool) (l : List α) (a : α)
    (h : (l.dropWhile p).head? = some a) : p a = false := by
  induction l with
  | nil => simp [List.dropWhile] at h
  | cons x rest ih =>
    by_cases hx : p x = true
    · rw [List.dropWhile_cons, if_pos hx] at h
      exact ih h
    · rw [List.dropWhile_cons, if_neg hx] at h
      simp only [List.head?_cons, Option.some.injEq] at h
      rw [← h]
      exact Bool.eq_false_iff.mpr hx

theorem dropWhile_of_head_not (p : α → Bool) (l : List α)
    (h : ∀ a, l.head? = some a → p a = false) : l.dropWhile p = l := by
  cases l with
  | nil => rfl
  | cons a rest =>
    rw [List.dropWhile_cons, if_neg]
    simp [h a rfl]

theorem rust_trim_idem (s : String) : rust_trim (rust_trim s) = rust_trim s := by
  cases s with
  | mk l =>
    have hmk : rust_trim (String.mk l) =
        String.mk (((l.dropWhile is_rust_ws).reverse.dropWhile is_rust_ws).reverse) := rfl
    set l1 := l.dropWhile is_rust_ws with hl1
    set r := ((l1.reverse.dropWhile is_rust_ws)).reverse with hr
    have hdata : (rust_trim (String.mk l)).data = r := rfl
    have hleft : r.dropWhile is_rust_ws = r := by
      refine dropWhile_of_head_not _ _ ?_
      intro a ha
      have hpre : r <+: l1 := by
        have h0 : (l1.reverse.dropWhile is_rust_ws).reverse <+: l1.reverse.reverse :=
          (List.dropWhile_suffix is_rust_ws).reverse
        rw [List.reverse_reverse] at h0
        exact hr ▸ h0
      obtain ⟨t, ht⟩ := hpre
      have hhead : l1.head? = some a := by
        rw [← ht]
        cases hcr : r with
        | nil => rw [hcr] at ha; simp at ha
        | cons x xs =>
          rw [hcr] at ha
          simp only [List.head?_cons, Option.some.injEq] at ha
          simp [ha]
      exact dropWhile_head_not is_rust_ws l a (hl1 ▸ hhead)
    have hright : r.reverse.dropWhile is_rust_ws = r.reverse := by
      rw [hr, List.reverse_reverse]
      exact dropWhile_idem _ _
    show String.mk (((r.dropWhile is_rust_ws).reverse.dropWhile is_rust_ws).reverse) = String.mk r
    rw [hleft, hright, List.reverse_reverse]

theorem append_singleton_inj {α} {x y : List α} {a b : α} (h : x ++ [a] = y ++ [b]) :
    x = y ∧ a = b := by
  have hb : a = b := by
    have := congrArg List.getLast? h
    simpa [List.getLast?_concat] using this
  have hx : x = y := by
    have := congrArg List.dropLast h
    simpa [List.dropLast_concat] using this
  exact ⟨hx, hb⟩

theorem brace_nl_ne_nl_nl (x y : String) : x ++ ("\x7d\n") ≠ y ++ ("\n\n") := by
  intro h
  have hd : x.data ++ ['\x7d'] ++ ['\n'] = y.data ++ ['\n'] ++ ['\n'] := by
    have := congrArg String.data h
    simpa [String.data_append, List.append_assoc] using this
  have h1 := (append_singleton_inj hd).1
  have h2 := (append_singleton_inj h1).2
  simp at h2

theorem brace_nl2_ne_nl3 (x y : String) : x ++ ("\x7d\n\n") ≠ y ++ ("\n\n\n") := by
  intro h
  have hd : x.data ++ ['\x7d'] ++ ['\n'] ++ ['\n'] = y.data ++ ['\n'] ++ ['\n'] ++ ['\n'] := by
    have := congrArg String.data h
    simpa [String.data_append, List.append_assoc] using this
  have h1 := (append_singleton_inj hd).1
  have h2 := (append_singleton_inj h1).1
  have h3 := (append_singleton_inj h2).2
  simp at h3

namespace query

theorem decrement_ok_of_succ (st : St) (c : Nat) (h : st.indent.count = c + 1) :
    st.decrement = .ok ⟨⟨st.indent.size, c⟩, st.out⟩ := by
  simp [St.decrement, h]

/-- The tail of `format_field` after the directives check and the
name/alias push, for an arbitrary already-pushed state `stN`: a
successful run preserves the indentation of the caller state `st` and
only appends to its buffer, and the run never underflows the
indentation counter. -/
theorem ff_body_spec (n : Nat) (st stN : St) (arguments : List (String × String))
    (selection_set : List Selection)
    (hfss_ih : ∀ (set : List Selection) (s : St),
      (∀ s' : St, fss_fuel n set s = .ok s' → s'.indent = s.indent ∧
        ∃ c, s'.out.buf = s.out.buf ++ c ∧ (set.isEmpty = false → ∃ b, c = b ++ ("\x7d\n"))) ∧
      fss_fuel n set s ≠ .error .indent_underflow)
    (hindN : stN.indent = st.indent) (cN : String)
    (hbufN : stN.out.buf = st.out.buf ++ cN) :
    (∀ st' : St,
      (match (if arguments.isEmpty then Except.ok (ε := Err) stN
              else
                let stP := stN.push_str ("(")
                let current_line_length := stP.current_line_length
                let args := sort_by str_le (arguments.map render_argument)
                let args_joined := String.intercalate (", ") args ++ (")")
                let line_length_with_args := current_line_length + args_joined.length
                if line_length_with_args > MAX_LINE_LENGTH then
                  let stW := stP.increment
                  let stW := stW.push_str ("\n")
                  let stW := args.foldl (fun st arg => st.push (arg ++ (",\n"))) stW
                  match stW.decrement with
                  | .error e => .error e
                  | .ok stW => .ok (stW.push (")"))
                else .ok (stP.push_str args_joined)) with
       | .error e => Except.error e
       | .ok st2 =>
         if selection_set.isEmpty then .ok (st2.push_str ("\n"))
         else fss_fuel n selection_set st2) = .ok st' →
      st'.indent = st.indent ∧ ∃ c, st'.out.buf = st.out.buf ++ c) ∧
    (match (if arguments.isEmpty then Except.ok (ε := Err) stN
            else
              let stP := stN.push_str ("(")
              let current_line_length := stP.current_line_length
              let args := sort_by str_le (arguments.map render_argument)
              let args_joined := String.intercalate (", ") args ++ (")")
              let line_length_with_args := current_line_length + args_joined.length
              if line_length_with_args > MAX_LINE_LENGTH then
                let stW := stP.increment
                let stW := stW.push_str ("\n")
                let stW := args.foldl (fun st arg => st.push (arg ++ (",\n"))) stW
                match stW.decrement with
                | .error e => .error e
                | .ok stW => .ok (stW.push (")"))
              else .ok (stP.push_str args_joined)) with
     | .error e => Except.error e
     | .ok st2 =>
       if selection_set.isEmpty then .ok (st2.push_str ("\n"))
       else fss_fuel n selection_set st2) ≠ .error .indent_underflow := by
  have res_spec : (∀ st1 : St,
      (if arguments.isEmpty then Except.ok (ε := Err) stN
       else
         let stP := stN.push_str ("(")
         let current_line_length := stP.current_line_length
         let args := sort_by str_le (arguments.map render_argument)
         let args_joined := String.intercalate (", ") args ++ (")")
         let line_length_with_args := current_line_length + args_joined.length
         if line_length_with_args > MAX_LINE_LENGTH then
           let stW := stP.increment
           let stW := stW.push_str ("\n")
           let stW := args.foldl (fun st arg => st.push (arg ++ (",\n"))) stW
           match stW.decrement with
           | .error e => .error e
           | .ok stW => .ok (stW.push (")"))
         else .ok (stP.push_str args_joined)) = .ok st1 →
        st1.indent = stN.indent ∧ ∃ c, st1.out.buf = stN.out.buf ++ c) ∧
      (if arguments.isEmpty then Except.ok (ε := Err) stN
       else
         let stP := stN.push_str ("(")
         let current_line_length := stP.current_line_length
         let args := sort_by str_le (arguments.map render_argument)
         let args_joined := String.intercalate (", ") args ++ (")")
         let line_length_with_args := current_line_length + args_joined.length
         if line_length_with_args > MAX_LINE_LENGTH then
           let stW := stP.increment
           let stW := stW.push_str ("\n")
           let stW := args.foldl (fun st arg => st.push (arg ++ (",\n"))) stW
           match stW.decrement with
           | .error e => .error e
           | .ok stW => .ok (stW.push (")"))
         else .ok (stP.push_str args_joined)) ≠ .error .indent_underflow := by
    by_cases hargs : arguments.isEmpty
    · refine ⟨fun st1 h => ?_, fun h => ?_⟩
      · simp only [if_pos hargs, Except.ok.injEq] at h
        subst h
        exact ⟨rfl, "", (str_append_empty _).symm⟩
      · simp only [if_pos hargs] at h; simp at h
    · by_cases hL : (stN.push_str ("(")).current_line_length +
          (String.intercalate (", ") (sort_by str_le (arguments.map render_argument)) ++
            (")")).length > MAX_LINE_LENGTH
      · have hfold := foldl_push_comma (sort_by str_le (arguments.map render_argument))
          (((stN.push_str ("(")).increment).push_str ("\n"))
        have hdec : ((sort_by str_le (arguments.map render_argument)).foldl
            (fun st arg => st.push (arg ++ (",\n")))
            (((stN.push_str ("(")).increment).push_str ("\n"))).decrement =
            .ok ⟨⟨stN.indent.size, stN.indent.count⟩,
              (((sort_by str_le (arguments.map render_argument)).foldl
                (fun st arg => st.push (arg ++ (",\n")))
                (((stN.push_str ("(")).increment).push_str ("\n")))).out⟩ := by
          rw [hfold]
          exact decrement_ok_of_succ _ stN.indent.count rfl
        refine ⟨fun st1 h => ?_, fun h => ?_⟩
        · simp only [if_neg hargs, if_pos hL, hdec, Except.ok.injEq] at h
          subst h
          constructor
          · rfl
          · refine ⟨("(") ++ ("\n") ++ str_concat (List.map
                (fun arg => (((stN.push_str ("(")).increment).push_str ("\n")).indent.spaces
                  ++ arg ++ (",\n"))
                (sort_by str_le (arguments.map render_argument)))
              ++ (⟨stN.indent.size, stN.indent.count⟩ : Indentation).spaces ++ (")"), ?_⟩
            show _ ++ _ ++ _ = stN.out.buf ++ _
            rw [hfold]
            simp [String.append_assoc]
        · simp only [if_neg hargs, if_pos hL, hdec] at h
          simp at h
      · refine ⟨fun st1 h => ?_, fun h => ?_⟩
        · simp only [if_neg hargs, if_neg hL, Except.ok.injEq] at h
          subst h
          refine ⟨rfl, ("(") ++ (String.intercalate (", ")
            (sort_by str_le (arguments.map render_argument)) ++ (")")), ?_⟩
          show stN.out.buf ++ ("(") ++ _ = _
          rw [String.append_assoc]
        · simp only [if_neg hargs, if_neg hL] at h; simp at h
  cases hres : (if arguments.isEmpty then Except.ok (ε := Err) stN
       else
         let stP := stN.push_str ("(")
         let current_line_length := stP.current_line_length
         let args := sort_by str_le (arguments.map render_argument)
         let args_joined := String.intercalate (", ") args ++ (")")
         let line_length_with_args := current_line_length + args_joined.length
         if line_length_with_args > MAX_LINE_LENGTH then
           let stW := stP.increment
           let stW := stW.push_str ("\n")
           let stW := args.foldl (fun st arg => st.push (arg ++ (",\n"))) stW
           match stW.decrement with
           | .error e => .error e
           | .ok stW => .ok (stW.push (")"))
         else .ok (stP.push_str args_joined)) with
  | error e =>
    have hne : e ≠ .indent_underflow := fun he => res_spec.2 (he ▸ hres)
    refine ⟨fun st' h => ?_, fun h => ?_⟩
    · have h2 : (Except.error e : Except Err St) = .ok st' := h
      simp at h2
    · have h2 : (Except.error e : Except Err St) = .error .indent_underflow := h
      exact hne (Except.error.inj h2)
  | ok st2 =>
    obtain ⟨hind2, c2, hbuf2⟩ := res_spec.1 st2 hres
    by_cases hsel : selection_set.isEmpty
    · refine ⟨fun st' h => ?_, fun h => ?_⟩
      · have h2 : (if selection_set.isEmpty then
            Except.ok (ε := Err) (st2.push_str ("\n"))
            else fss_fuel n selection_set st2) = .ok st' := h
        rw [if_pos hsel] at h2
        have h3 : st2.push_str ("\n") = st' := Except.ok.inj h2
        subst h3
        refine ⟨hind2.trans hindN, cN ++ c2 ++ ("\n"), ?_⟩
        show st2.out.buf ++ _ = _
        rw [hbuf2, hbufN]
        simp [String.append_assoc]
      · have h2 : (if selection_set.isEmpty then
            Except.ok (ε := Err) (st2.push_str ("\n"))
            else fss_fuel n selection_set st2) = .error .indent_underflow := h
        rw [if_pos hsel] at h2
        simp at h2
    · refine ⟨fun st' h => ?_, fun h => ?_⟩
      · have h2 : (if selection_set.isEmpty then
            Except.ok (ε := Err) (st2.push_str ("\n"))
            else fss_fuel n selection_set st2) = .ok st' := h
        rw [if_neg hsel] at h2
        obtain ⟨hind3, c3, hbuf3, _⟩ := (hfss_ih selection_set st2).1 st' h2
        refine ⟨(hind3.trans hind2).trans hindN, cN ++ c2 ++ c3, ?_⟩
        rw [hbuf3, hbuf2, hbufN]
        simp [String.append_assoc]
      · have h2 : (if selection_set.isEmpty then
            Except.ok (ε := Err) (st2.push_str ("\n"))
            else fss_fuel n selection_set st2) = .error .indent_underflow := h
        rw [if_neg hsel] at h2
        exact (hfss_ih selection_set st2).2 h2

/-- Balance, append-only growth and block-ending shape of every printer
run, at the fuel level: a successful run leaves the indentation exactly
where it was and only appends to the buffer (a non-empty selection set's
appended text ends in `"}\n"`), and no run ever reaches the
`Indentation::decrement` underflow. -/
theorem fuel_run_spec : ∀ fuel : Nat,
    (∀ set st, (∀ st', fss_fuel fuel set st = .ok st' → st'.indent = st.indent ∧
        ∃ c, st'.out.buf = st.out.buf ++ c ∧
          (set.isEmpty = false → ∃ b, c = b ++ ("\x7d\n"))) ∧
      fss_fuel fuel set st ≠ .error .indent_underflow) ∧
    (∀ items st, (∀ st', gos_fuel fuel items st = .ok st' → st'.indent = st.indent ∧
        ∃ c, st'.out.buf = st.out.buf ++ c) ∧
      gos_fuel fuel items st ≠ .error .indent_underflow) ∧
    (∀ field st, (∀ st', ff_fuel fuel field st = .ok st' → st'.indent = st.indent ∧
        ∃ c, st'.out.buf = st.out.buf ++ c) ∧
      ff_fuel fuel field st ≠ .error .indent_underflow) ∧
    (∀ inline_frag st, (∀ st', fif_fuel fuel inline_frag st = .ok st' → st'.indent = st.indent ∧
        ∃ c, st'.out.buf = st.out.buf ++ c) ∧
      fif_fuel fuel inline_frag st ≠ .error .indent_underflow) := by
  intro fuel
  induction fuel with
  | zero =>
    refine ⟨fun set st => ⟨fun st' h => by simp [fss_fuel] at h, by simp [fss_fuel]⟩,
      fun items st => ⟨fun st' h => by simp [gos_fuel] at h, by simp [gos_fuel]⟩,
      fun field st => ⟨fun st' h => by simp [ff_fuel] at h, by simp [ff_fuel]⟩,
      fun inline_frag st => ⟨fun st' h => by simp [fif_fuel] at h, by simp [fif_fuel]⟩⟩
  | succ n ihn =>
    have hfss : ∀ set st, (∀ st', fss_fuel (n + 1) set st = .ok st' →
        st'.indent = st.indent ∧ ∃ c, st'.out.buf = st.out.buf ++ c ∧
          (set.isEmpty = false → ∃ b, c = b ++ ("\x7d\n"))) ∧
        fss_fuel (n + 1) set st ≠ .error .indent_underflow := by
      intro set st
      by_cases hset : set.isEmpty
      · refine ⟨fun st' h => ?_, ?_⟩
        · simp only [fss_fuel, if_pos hset, Except.ok.injEq] at h
          subst h
          exact ⟨rfl, "", (str_append_empty _).symm, by simp [hset]⟩
        · simp [fss_fuel, if_pos hset]
      · have hstep : fss_fuel (n + 1) set st =
            (match gos_fuel n (sort_by selection_le set) ((st.push_str (" \x7b\n")).increment) with
             | .error e => .error e
             | .ok st3 =>
               match st3.decrement with
               | .error e => .error e
               | .ok st4 => .ok (st4.push ("\x7d\n"))) := by
          simp only [fss_fuel, if_neg hset]
        cases hgo : gos_fuel n (sort_by selection_le set) ((st.push_str (" \x7b\n")).increment) with
        | error e =>
          have hne : e ≠ .indent_underflow := by
            intro he
            exact (ihn.2.1 _ _).2 (he ▸ hgo)
          refine ⟨fun st' h => ?_, fun h => ?_⟩
          · rw [hstep, hgo] at h; simp at h
          · rw [hstep, hgo] at h
            exact hne (by injection h)
        | ok st3 =>
          obtain ⟨hind3, c0, hbuf3⟩ := (ihn.2.1 _ _).1 st3 hgo
          have hcnt : st3.indent.count = st.indent.count + 1 := by
            rw [hind3]; rfl
          have hsz : st3.indent.size = st.indent.size := by
            rw [hind3]; rfl
          have hdec := decrement_ok_of_succ st3 st.indent.count hcnt
          have hval : fss_fuel (n + 1) set st =
              .ok ((⟨⟨st3.indent.size, st.indent.count⟩, st3.out⟩ : St).push ("\x7d\n")) := by
            rw [hstep, hgo]
            show (match st3.decrement with
                  | .error e => Except.error e
                  | .ok st4 => .ok (st4.push ("\x7d\n"))) = _
            rw [hdec]
          refine ⟨fun st' h => ?_, fun h => ?_⟩
          · rw [hval] at h
            simp only [Except.ok.injEq] at h
            subst h
            constructor
            · show (⟨st3.indent.size, st.indent.count⟩ : Indentation) = st.indent
              rw [hsz]
            · refine ⟨(" \x7b\n") ++ c0 ++ (⟨st3.indent.size, st.indent.count⟩ : Indentation).spaces
                ++ ("\x7d\n"), ?_, ?_⟩
              · show st3.out.buf ++ _ ++ ("\x7d\n") = _
                rw [hbuf3]
                simp [St.out_push_str, St.out_increment, String.append_assoc]
              · intro _
                exact ⟨(" \x7b\n") ++ c0 ++ (⟨st3.indent.size, st.indent.count⟩ : Indentation).spaces,
                  by simp [String.append_assoc]⟩
          · rw [hval] at h
            simp at h
    have hgos : ∀ items st, (∀ st', gos_fuel (n + 1) items st = .ok st' →
        st'.indent = st.indent ∧ ∃ c, st'.out.buf = st.out.buf ++ c) ∧
        gos_fuel (n + 1) items st ≠ .error .indent_underflow := by
      intro items st
      cases items with
      | nil =>
        refine ⟨fun st' h => ?_, by simp [gos_fuel]⟩
        simp only [gos_fuel, Except.ok.injEq] at h
        subst h
        exact ⟨rfl, "", (str_append_empty _).symm⟩
      | cons selection rest =>
        have compose : ∀ r : Except Err St,
            (∀ st1 : St, r = .ok st1 → st1.indent = st.indent ∧
              ∃ c, st1.out.buf = st.out.buf ++ c) →
            r ≠ .error .indent_underflow →
            (∀ st' : St, (match r with
                     | .error e => Except.error e
                     | .ok st1 => gos_fuel n rest st1) = .ok st' →
              st'.indent = st.indent ∧ ∃ c, st'.out.buf = st.out.buf ++ c) ∧
            (match r with
             | .error e => Except.error e
             | .ok st1 => gos_fuel n rest st1) ≠ .error .indent_underflow := by
          intro r hok hne
          cases r with
          | error e =>
            refine ⟨fun st' h => by simp at h, fun h => ?_⟩
            have he : e = Err.indent_underflow := by
              simp only [] at h
              exact (Except.error.inj h)
            exact hne (by rw [he])
          | ok st1 =>
            obtain ⟨hind1, c1, hbuf1⟩ := hok st1 rfl
            refine ⟨fun st' h => ?_, (ihn.2.1 rest st1).2⟩
            obtain ⟨hind2, c2, hbuf2⟩ := (ihn.2.1 rest st1).1 st' h
            exact ⟨hind2.trans hind1, c1 ++ c2, by rw [hbuf2, hbuf1, String.append_assoc]⟩
        cases selection with
        | field f =>
          have hstep : gos_fuel (n + 1) (Selection.field f :: rest) st =
              (match ff_fuel n f st with
               | .error e => Except.error e
               | .ok st1 => gos_fuel n rest st1) := by
            simp only [gos_fuel]
          rw [hstep]
          exact compose (ff_fuel n f st) (ihn.2.2.1 f st).1 (ihn.2.2.1 f st).2
        | fragment_spread frag_spread =>
          have hstep : gos_fuel (n + 1) (Selection.fragment_spread frag_spread :: rest) st =
              (match (if frag_spread.directives ≠ 0 then
                        Except.error (ε := Err) (.todo ("frag_spread.directives"))
                      else .ok (st.push (("...") ++ frag_spread.fragment_name ++ ("\n")))) with
               | .error e => Except.error e
               | .ok st1 => gos_fuel n rest st1) := by
            simp only [gos_fuel]
          rw [hstep]
          refine compose _ (fun st1 h => ?_) ?_
          · by_cases hd : frag_spread.directives ≠ 0
            · rw [if_pos hd] at h; simp at h
            · rw [if_neg hd] at h
              have h1 : st.push (("...") ++ frag_spread.fragment_name ++ ("\n")) = st1 :=
                Except.ok.inj h
              subst h1
              refine ⟨rfl, st.indent.spaces ++ (("...") ++ frag_spread.fragment_name ++ ("\n")), ?_⟩
              show st.out.buf ++ st.indent.spaces ++ _ = _
              rw [String.append_assoc]
          · by_cases hd : frag_spread.directives ≠ 0
            · rw [if_pos hd]; simp
            · rw [if_neg hd]; simp
        | inline_fragment inline_frag =>
          have hstep : gos_fuel (n + 1) (Selection.inline_fragment inline_frag :: rest) st =
              (match fif_fuel n inline_frag st with
               | .error e => Except.error e
               | .ok st1 => gos_fuel n rest st1) := by
            simp only [gos_fuel]
          rw [hstep]
          exact compose (fif_fuel n inline_frag st)
            (ihn.2.2.2 inline_frag st).1 (ihn.2.2.2 inline_frag st).2
    have hff : ∀ field st, (∀ st', ff_fuel (n + 1) field st = .ok st' →
        st'.indent = st.indent ∧ ∃ c, st'.out.buf = st.out.buf ++ c) ∧
        ff_fuel (n + 1) field st ≠ .error .indent_underflow := by
      intro field st
      obtain ⟨alias_, name, arguments, directives, selection_set⟩ := field
      by_cases hd : directives ≠ 0
      · refine ⟨fun st' h => ?_, fun h => ?_⟩
        · simp only [ff_fuel, if_pos hd] at h; simp at h
        · simp only [ff_fuel, if_pos hd] at h; simp at h
      · cases alias_ with
        | none =>
          have hstep : ff_fuel (n + 1) (.mk none name arguments directives selection_set) st =
              (match (if arguments.isEmpty then Except.ok (ε := Err) (st.push name)
                      else
                        let stP := (st.push name).push_str ("(")
                        let current_line_length := stP.current_line_length
                        let args := sort_by str_le (arguments.map render_argument)
                        let args_joined := String.intercalate (", ") args ++ (")")
                        let line_length_with_args := current_line_length + args_joined.length
                        if line_length_with_args > MAX_LINE_LENGTH then
                          let stW := stP.increment
                          let stW := stW.push_str ("\n")
                          let stW := args.foldl (fun st arg => st.push (arg ++ (",\n"))) stW
                          match stW.decrement with
                          | .error e => .error e
                          | .ok stW => .ok (stW.push (")"))
                        else .ok (stP.push_str args_joined)) with
               | .error e => Except.error e
               | .ok st2 =>
                 if selection_set.isEmpty then .ok (st2.push_str ("\n"))
                 else fss_fuel n selection_set st2) := by
            simp only [ff_fuel]
            rw [if_neg hd]
          rw [hstep]
          exact ff_body_spec n st (st.push name) arguments selection_set ihn.1 rfl
            (st.indent.spaces ++ name)
            (by show st.out.buf ++ st.indent.spaces ++ name = _
                rw [String.append_assoc])
        | some a =>
          have hstep : ff_fuel (n + 1) (.mk (some a) name arguments directives selection_set) st =
              (match (if arguments.isEmpty then
                        Except.ok (ε := Err) (st.push (a ++ (": ") ++ name))
                      else
                        let stP := (st.push (a ++ (": ") ++ name)).push_str ("(")
                        let current_line_length := stP.current_line_length
                        let args := sort_by str_le (arguments.map render_argument)
                        let args_joined := String.intercalate (", ") args ++ (")")
                        let line_length_with_args := current_line_length + args_joined.length
                        if line_length_with_args > MAX_LINE_LENGTH then
                          let stW := stP.increment
                          let stW := stW.push_str ("\n")
                          let stW := args.foldl (fun st arg => st.push (arg ++ (",\n"))) stW
                          match stW.decrement with
                          | .error e => .error e
                          | .ok stW => .ok (stW.push (")"))
                        else .ok (stP.push_str args_joined)) with
               | .error e => Except.error e
               | .ok st2 =>
                 if selection_set.isEmpty then .ok (st2.push_str ("\n"))
                 else fss_fuel n selection_set st2) := by
            simp only [ff_fuel]
            rw [if_neg hd]
          rw [hstep]
          exact ff_body_spec n st (st.push (a ++ (": ") ++ name)) arguments selection_set ihn.1
            rfl (st.indent.spaces ++ (a ++ (": ") ++ name))
            (by show st.out.buf ++ st.indent.spaces ++ _ = _
                rw [String.append_assoc])
    have hfif : ∀ inline_frag st, (∀ st', fif_fuel (n + 1) inline_frag st = .ok st' →
        st'.indent = st.indent ∧ ∃ c, st'.out.buf = st.out.buf ++ c) ∧
        fif_fuel (n + 1) inline_frag st ≠ .error .indent_underflow := by
      intro inline_frag st
      obtain ⟨type_condition, directives, selection_set⟩ := inline_frag
      by_cases hd : directives ≠ 0
      · refine ⟨fun st' h => ?_, fun h => ?_⟩
        · simp only [fif_fuel, if_pos hd] at h; simp at h
        · simp only [fif_fuel, if_pos hd] at h; simp at h
      · set stT := (match type_condition with
          | some type_condition => (st.push ("...")).push_str ((" on ") ++ type_condition)
          | none => st.push ("...")) with hstT
        have hindT : stT.indent = st.indent := by
          cases type_condition <;> rfl
        have hbufT : ∃ c, stT.out.buf = st.out.buf ++ c := by
          cases type_condition with
          | none =>
            refine ⟨st.indent.spaces ++ ("..."), ?_⟩
            rw [hstT]
            show st.out.buf ++ st.indent.spaces ++ ("...") = _
            rw [String.append_assoc]
          | some tc =>
            refine ⟨st.indent.spaces ++ (("...") ++ ((" on ") ++ tc)), ?_⟩
            rw [hstT]
            show st.out.buf ++ st.indent.spaces ++ ("...") ++ ((" on ") ++ tc) = _
            simp [String.append_assoc]
        have hstep : fif_fuel (n + 1) (.mk type_condition directives selection_set) st =
            fss_fuel n selection_set stT := by
          simp only [fif_fuel, if_neg hd, hstT]
        obtain ⟨cT, hbufTc⟩ := hbufT
        refine ⟨fun st' h => ?_, fun h => ?_⟩
        · rw [hstep] at h
          obtain ⟨hind3, c3, hbuf3, _⟩ := (ihn.1 selection_set stT).1 st' h
          refine ⟨hind3.trans hindT, cT ++ c3, ?_⟩
          rw [hbuf3, hbufTc, String.append_assoc]
        · rw [hstep] at h
          exact (ihn.1 selection_set stT).2 h
    exact ⟨hfss, hgos, hff, hfif⟩

end query

/-! ## Run-shape facts for the whole-function printers

The fuel-level `fuel_run_spec` transfers to the well-founded printers via
the `*_eval_eq` bridge: every successful run preserves the indentation,
only appends to the buffer, and the appended chunk of a non-empty
selection set ends in `"}\n"`; no run ever reaches the
`Indentation::decrement` underflow. -/

theorem str_append_left_cancel {a b c : String} (h : a ++ b = a ++ c) : b = c := by
  have h2 : a.data ++ b.data = a.data ++ c.data := by
    have := congrArg String.data h
    simpa [String.data_append] using this
  have h3 : b.data = c.data := List.append_cancel_left h2
  cases b
  cases c
  exact congrArg String.mk h3

theorem brace_nl_cat : ("\x7d\n" : String) ++ ("\n") = ("\x7d\n\n") := rfl

namespace query

theorem format_selection_set_spec (set : List Selection) (st : St) :
    (∀ st' : St, format_selection_set set st = .ok st' → st'.indent = st.indent ∧
      ∃ c, st'.out.buf = st.out.buf ++ c ∧
        (set.isEmpty = false → ∃ b, c = b ++ ("\x7d\n"))) ∧
    format_selection_set set st ≠ .error .indent_underflow := by
  have h := (fuel_run_spec (4 * sels_weight set + 2)).1 set st
  rw [← format_selection_set_eval_eq]
  exact h

theorem format_operation_type_spec (keyword : String) (op : OperationBody) (st : St) :
    (∀ st' : St, format_operation_type keyword op st = .ok st' → st'.indent = st.indent ∧
      ∃ c, st'.out.buf = st.out.buf ++ c ∧
        (op.selection_set.isEmpty = false → ∃ b, c = b ++ ("\x7d\n\n"))) ∧
    format_operation_type keyword op st ≠ .error .indent_underflow := by
  by_cases hd : op.directives ≠ 0
  · refine ⟨fun st' h => ?_, fun h => ?_⟩
    · simp only [format_operation_type, if_pos hd] at h; simp at h
    · simp only [format_operation_type, if_pos hd] at h; simp at h
  · have hmain : ∀ (stV : St) (cv : String), stV.indent = st.indent →
        stV.out.buf = st.out.buf ++ cv →
        (∀ st' : St, (match format_selection_set op.selection_set stV with
                      | .error e => Except.error e
                      | .ok st2 => .ok (st2.push_str ("\n"))) = .ok st' →
          st'.indent = st.indent ∧ ∃ c, st'.out.buf = st.out.buf ++ c ∧
            (op.selection_set.isEmpty = false → ∃ b, c = b ++ ("\x7d\n\n"))) ∧
        (match format_selection_set op.selection_set stV with
         | .error e => Except.error e
         | .ok st2 => .ok (st2.push_str ("\n"))) ≠ .error .indent_underflow := by
      intro stV cv hiv hbv
      cases hfs : format_selection_set op.selection_set stV with
      | error e =>
        have hne : e ≠ .indent_underflow := fun he =>
          (format_selection_set_spec op.selection_set stV).2 (he ▸ hfs)
        refine ⟨fun st' h => ?_, fun h => ?_⟩
        · simp at h
        · have h2 : (Except.error e : Except Err St) = .error .indent_underflow := h
          exact hne (Except.error.inj h2)
      | ok st2 =>
        obtain ⟨hind2, c2, hbuf2, hend2⟩ :=
          (format_selection_set_spec op.selection_set stV).1 st2 hfs
        refine ⟨fun st' h => ?_, fun h => ?_⟩
        · have h2 : Except.ok (ε := Err) (st2.push_str ("\n")) = .ok st' := h
          have h3 := Except.ok.inj h2
          subst h3
          refine ⟨hind2.trans hiv, cv ++ (c2 ++ ("\n")), ?_, ?_⟩
          · show st2.out.buf ++ ("\n") = _
            rw [hbuf2, hbv]
            simp [String.append_assoc]
          · intro hne
            obtain ⟨b0, hb0⟩ := hend2 hne
            refine ⟨cv ++ b0, ?_⟩
            rw [hb0, ← brace_nl_cat]
            simp [String.append_assoc]
        · have h2 : Except.ok (ε := Err) (st2.push_str ("\n")) = .error .indent_underflow := h
          simp at h2
    have hstep : format_operation_type keyword op st =
        (match format_selection_set op.selection_set
            (if op.variable_definitions.isEmpty then
               (match op.name with
                | some name => st.push (keyword ++ (" ") ++ name)
                | none => st.push keyword)
             else
               (((if op.name.isSome then
                    (match op.name with
                     | some name => st.push (keyword ++ (" ") ++ name)
                     | none => st.push keyword).push_str ("(")
                  else
                    (match op.name with
                     | some name => st.push (keyword ++ (" ") ++ name)
                     | none => st.push keyword).push_str (" ("))).push_str
                  (String.intercalate (", ")
                    (op.variable_definitions.map render_variable_definition))).push_str (")")) with
         | .error e => Except.error e
         | .ok st2 => .ok (st2.push_str ("\n"))) := by
      simp only [format_operation_type]
      rw [if_neg hd]
    rw [hstep]
    have hindV : (if op.variable_definitions.isEmpty then
           (match op.name with
            | some name => st.push (keyword ++ (" ") ++ name)
            | none => st.push keyword)
         else
           (((if op.name.isSome then
                (match op.name with
                 | some name => st.push (keyword ++ (" ") ++ name)
                 | none => st.push keyword).push_str ("(")
              else
                (match op.name with
                 | some name => st.push (keyword ++ (" ") ++ name)
                 | none => st.push keyword).push_str (" ("))).push_str
              (String.intercalate (", ")
                (op.variable_definitions.map render_variable_definition))).push_str
            (")")).indent = st.indent := by
      cases hop : op.name <;> split_ifs <;> rfl
    have hbufV : ∃ cv, (if op.variable_definitions.isEmpty then
           (match op.name with
            | some name => st.push (keyword ++ (" ") ++ name)
            | none => st.push keyword)
         else
           (((if op.name.isSome then
                (match op.name with
                 | some name => st.push (keyword ++ (" ") ++ name)
                 | none => st.push keyword).push_str ("(")
              else
                (match op.name with
                 | some name => st.push (keyword ++ (" ") ++ name)
                 | none => st.push keyword).push_str (" ("))).push_str
              (String.intercalate (", ")
                (op.variable_definitions.map render_variable_definition))).push_str
            (")")).out.buf = st.out.buf ++ cv := by
      cases hop : op.name with
      | none =>
        by_cases hv : op.variable_definitions.isEmpty
        · refine ⟨st.indent.spaces ++ keyword, ?_⟩
          simp [hv, St.push, String.append_assoc]
        · refine ⟨st.indent.spaces ++ (keyword ++ ((" (") ++
            ((String.intercalate (", ")
              (op.variable_definitions.map render_variable_definition)) ++ (")")))), ?_⟩
          simp [hv, St.push, St.push_str, String.append_assoc]
      | some nm =>
        by_cases hv : op.variable_definitions.isEmpty
        · refine ⟨st.indent.spaces ++ (keyword ++ ((" ") ++ nm)), ?_⟩
          simp [hv, St.push, String.append_assoc]
        · refine ⟨st.indent.spaces ++ (keyword ++ ((" ") ++ (nm ++ (("(") ++
            ((String.intercalate (", ")
              (op.variable_definitions.map render_variable_definition)) ++ (")")))))), ?_⟩
          simp [hv, St.push, St.push_str, String.append_assoc]
    obtain ⟨cv, hbv⟩ := hbufV
    exact hmain _ cv hindV hbv

theorem format_fragment_spec (frag : FragmentDefinition) (st : St) :
    (∀ st' : St, format_fragment frag st = .ok st' → st'.indent = st.indent ∧
      ∃ c, st'.out.buf = st.out.buf ++ c ∧
        (frag.selection_set.isEmpty = false → ∃ b, c = b ++ ("\x7d\n"))) ∧
    format_fragment frag st ≠ .error .indent_underflow := by
  have h := format_selection_set_spec frag.selection_set
    (st.push (("fragment ") ++ frag.name ++ (" on ") ++ frag.type_condition))
  refine ⟨fun st' hh => ?_, h.2⟩
  obtain ⟨hind, c, hbuf, hend⟩ := h.1 st' hh
  refine ⟨hind, st.indent.spaces ++
    ((("fragment ") ++ frag.name ++ (" on ") ++ frag.type_condition) ++ c), ?_, ?_⟩
  · rw [hbuf]
    simp [St.push, String.append_assoc]
  · intro hne
    obtain ⟨b0, hb0⟩ := hend hne
    refine ⟨st.indent.spaces ++
      ((("fragment ") ++ frag.name ++ (" on ") ++ frag.type_condition) ++ b0), ?_⟩
    rw [hb0]
    simp [String.append_assoc]

theorem format_def_run_spec (d : Definition) (st : St) :
    (∀ st' : St, format_def d st = .ok st' → st'.indent = st.indent ∧
      ∃ c, st'.out.buf = st.out.buf ++ c) ∧
    format_def d st ≠ .error .indent_underflow := by
  cases d with
  | fragment frag =>
    have h := format_fragment_spec frag st
    exact ⟨fun st' hh => by
      obtain ⟨hi, c, hb, _⟩ := h.1 st' hh
      exact ⟨hi, c, hb⟩, h.2⟩
  | operation op =>
    cases op with
    | selection_set set =>
      have h := format_selection_set_spec set st
      exact ⟨fun st' hh => by
        obtain ⟨hi, c, hb, _⟩ := h.1 st' hh
        exact ⟨hi, c, hb⟩, h.2⟩
    | query q =>
      have h := format_operation_type_spec ("query") q st
      exact ⟨fun st' hh => by
        obtain ⟨hi, c, hb, _⟩ := h.1 st' hh
        exact ⟨hi, c, hb⟩, h.2⟩
    | mutation m =>
      have h := format_operation_type_spec ("mutation") m st
      exact ⟨fun st' hh => by
        obtain ⟨hi, c, hb, _⟩ := h.1 st' hh
        exact ⟨hi, c, hb⟩, h.2⟩
    | subscription s =>
      have h := format_operation_type_spec ("subscription") s st
      exact ⟨fun st' hh => by
        obtain ⟨hi, c, hb, _⟩ := h.1 st' hh
        exact ⟨hi, c, hb⟩, h.2⟩

theorem format_doc_run_spec (doc : Document) : ∀ st : St,
    (∀ st' : St, format_doc doc st = .ok st' → st'.indent = st.indent ∧
      ∃ c, st'.out.buf = st.out.buf ++ c) ∧
    format_doc doc st ≠ .error .indent_underflow := by
  induction doc with
  | nil =>
    intro st
    refine ⟨fun st' h => ?_, by simp [format_doc]⟩
    have h2 : st = st' := Except.ok.inj h
    subst h2
    exact ⟨rfl, "", (str_append_empty _).symm⟩
  | cons d rest ih =>
    intro st
    have hstep : format_doc (d :: rest) st =
        (match format_def d st with
         | .error e => Except.error e
         | .ok st1 => format_doc rest st1) := by
      simp only [format_doc]
    rw [hstep]
    cases hd : format_def d st with
    | error e =>
      have hne : e ≠ .indent_underflow := fun he => (format_def_run_spec d st).2 (he ▸ hd)
      refine ⟨fun st' h => ?_, fun h => ?_⟩
      · simp at h
      · have h2 : (Except.error e : Except Err St) = .error .indent_underflow := h
        exact hne (Except.error.inj h2)
    | ok st1 =>
      obtain ⟨hind1, c1, hbuf1⟩ := (format_def_run_spec d st).1 st1 hd
      refine ⟨fun st' h => ?_, (ih st1).2⟩
      obtain ⟨hind2, c2, hbuf2⟩ := (ih st1).1 st' h
      exact ⟨hind2.trans hind1, c1 ++ c2, by rw [hbuf2, hbuf1, String.append_assoc]⟩

end query

namespace schema

theorem push_desc_indent (desc : Option String) (st : St) :
    (push_desc desc st).indent = st.indent := by
  cases desc <;> rfl

theorem foldl_push_nl_indent (l : List String) : ∀ st : St,
    (List.foldl (fun st value => st.push (value ++ ("\n"))) st l).indent = st.indent := by
  induction l with
  | nil => intro st; rfl
  | cons a rest ih =>
    intro st
    rw [List.foldl_cons, ih]
    rfl

theorem sfield_run_spec (field : Field) (st : St) :
    (∀ st' : St, format_field field st = .ok st' → st'.indent = st.indent) ∧
    format_field field st ≠ .error .indent_underflow := by
  obtain ⟨name, description, arguments, field_type⟩ := field
  have hD : (push_desc description st).indent = st.indent := push_desc_indent description st
  by_cases hargs : arguments.isEmpty
  · have hstep : format_field (.mk name description arguments field_type) st =
        .ok (((push_desc description st).push name).push_str
          ((": ") ++ field_type ++ ("\n"))) := by
      simp only [format_field]
      rw [if_pos hargs]
    refine ⟨fun st' h => ?_, fun h => ?_⟩
    · rw [hstep] at h
      have h2 := Except.ok.inj h
      subst h2
      exact hD
    · rw [hstep] at h
      simp at h
  · by_cases hL : (((push_desc description st).push name).push_str ("(")).current_line_length +
        (String.intercalate (", ") (sort_by str_le (arguments.map render_field_argument)) ++
          (")")).length > MAX_LINE_LENGTH
    · have hfold := foldl_push_comma (sort_by str_le (arguments.map render_field_argument))
        (((((push_desc description st).push name).push_str ("(")).increment).push_str ("\n"))
      refine ⟨fun st' h => ?_, fun h => ?_⟩
      · simp only [format_field] at h
        rw [if_neg hargs, if_pos hL, hfold] at h
        simp only [St.indent_push, St.indent_push_str, St.indent_increment] at h
        rw [decrement_eq] at h
        have h3 := Except.ok.inj h
        subst h3
        exact hD
      · simp only [format_field] at h
        rw [if_neg hargs, if_pos hL, hfold] at h
        simp only [St.indent_push, St.indent_push_str, St.indent_increment] at h
        rw [decrement_eq] at h
        simp at h
    · refine ⟨fun st' h => ?_, fun h => ?_⟩
      · simp only [format_field] at h
        rw [if_neg hargs, if_neg hL] at h
        have h2 : Except.ok (ε := Err)
            (((((push_desc description st).push name).push_str ("(")).push_str
              (String.intercalate (", ")
                (sort_by str_le (arguments.map render_field_argument)) ++ (")"))).push_str
              ((": ") ++ field_type ++ ("\n"))) = .ok st' := h
        have h3 := Except.ok.inj h2
        subst h3
        exact hD
      · simp only [format_field] at h
        rw [if_neg hargs, if_neg hL] at h
        have h2 : Except.ok (ε := Err)
            (((((push_desc description st).push name).push_str ("(")).push_str
              (String.intercalate (", ")
                (sort_by str_le (arguments.map render_field_argument)) ++ (")"))).push_str
              ((": ") ++ field_type ++ ("\n"))) = .error .indent_underflow := h
        simp at h2

theorem sfields_go_run_spec (l : List Field) : ∀ st : St,
    (∀ st' : St, fields_go l st = .ok st' → st'.indent = st.indent) ∧
    fields_go l st ≠ .error .indent_underflow := by
  induction l with
  | nil =>
    intro st
    refine ⟨fun st' h => ?_, by simp [fields_go]⟩
    have h2 : st = st' := Except.ok.inj h
    subst h2
    rfl
  | cons f rest ih =>
    intro st
    have hstep : fields_go (f :: rest) st =
        (match format_field f st with
         | .error e => Except.error e
         | .ok st1 => fields_go rest st1) := by
      simp only [fields_go]
    rw [hstep]
    cases hf : format_field f st with
    | error e =>
      have hne : e ≠ .indent_underflow := fun he => (sfield_run_spec f st).2 (he ▸ hf)
      refine ⟨fun st' h => ?_, fun h => ?_⟩
      · simp at h
      · have h2 : (Except.error e : Except Err St) = .error .indent_underflow := h
        exact hne (Except.error.inj h2)
    | ok st1 =>
      have hi1 := (sfield_run_spec f st).1 st1 hf
      refine ⟨fun st' h => ?_, (ih st1).2⟩
      exact ((ih st1).1 st' h).trans hi1

theorem sformat_fields_run_spec (fields : List Field) (st : St) :
    (∀ st' : St, format_fields fields st = .ok st' → st'.indent = st.indent) ∧
    format_fields fields st ≠ .error .indent_underflow := by
  have hstep : format_fields fields st =
      (match fields_go (sort_by (fun a b => str_le a.name b.name) fields) st.increment with
       | .error e => Except.error e
       | .ok st1 => st1.decrement) := by
    simp only [format_fields]
  rw [hstep]
  cases hg : fields_go (sort_by (fun a b => str_le a.name b.name) fields) st.increment with
  | error e =>
    have hne : e ≠ .indent_underflow := fun he =>
      (sfields_go_run_spec _ st.increment).2 (he ▸ hg)
    refine ⟨fun st' h => ?_, fun h => ?_⟩
    · simp at h
    · have h2 : (Except.error e : Except Err St) = .error .indent_underflow := h
      exact hne (Except.error.inj h2)
  | ok st1 =>
    have hi1 := (sfields_go_run_spec _ st.increment).1 st1 hg
    have hcnt : st1.indent.count = st.indent.count + 1 := by rw [hi1]; rfl
    have hsz : st1.indent.size = st.indent.size := by rw [hi1]; rfl
    have hdec := query.decrement_ok_of_succ st1 st.indent.count hcnt
    refine ⟨fun st' h => ?_, fun h => ?_⟩
    · have h2 : st1.decrement = .ok st' := h
      rw [hdec] at h2
      have h3 := Except.ok.inj h2
      subst h3
      show (⟨st1.indent.size, st.indent.count⟩ : Indentation) = st.indent
      rw [hsz]
    · have h2 : st1.decrement = .error .indent_underflow := h
      rw [hdec] at h2
      simp at h2

end schema

namespace schema

/-- The full evaluation of a `schema` block, with the three optional root
lines in their fixed order (helper mirror of the printer's `format_def`
first arm). -/
theorem schema_block_eval (m q sub : Option String) (st : St) :
    format_def (.schema_definition m q sub) st =
      .ok ⟨st.indent, ⟨st.out.buf ++ st.indent.spaces ++ ("schema \x7b\n") ++
        opt_root_line st.indent ("mutation: ") m ++
        opt_root_line st.indent ("query: ") q ++
        opt_root_line st.indent ("subscription: ") sub ++
        st.indent.spaces ++ ("\x7d\n\n")⟩⟩ := by
  cases m <;> cases q <;> cases sub <;>
    simp [format_def, opt_root_line, St.push, St.push_str, St.increment, St.decrement,
      Indentation.spaces, String.append_assoc]

theorem sformat_type_run_spec (type_def : TypeDefinition) (st : St) :
    (∀ st' : St, format_type type_def st = .ok st' → st'.indent = st.indent) ∧
    format_type type_def st ≠ .error .indent_underflow := by
  cases type_def with
  | object name description implements_interfaces fields =>
    have hD : (push_desc description st).indent = st.indent := push_desc_indent description st
    have hS : ((if implements_interfaces.isEmpty then
          (push_desc description st).push (("type ") ++ name)
        else
          map_join implements_interfaces (" & ")
            (((push_desc description st).push (("type ") ++ name)).push_str
              (" implements "))).push_str (" \x7b\n")).indent = st.indent := by
      split_ifs <;> exact hD
    have hstep : format_type (.object name description implements_interfaces fields) st =
        (match format_fields fields ((if implements_interfaces.isEmpty then
            (push_desc description st).push (("type ") ++ name)
          else
            map_join implements_interfaces (" & ")
              (((push_desc description st).push (("type ") ++ name)).push_str
                (" implements "))).push_str (" \x7b\n")) with
         | .error e => Except.error e
         | .ok st2 => .ok (st2.push ("\x7d\n\n"))) := by
      simp only [format_type]
    rw [hstep]
    cases hf : format_fields fields ((if implements_interfaces.isEmpty then
        (push_desc description st).push (("type ") ++ name)
      else
        map_join implements_interfaces (" & ")
          (((push_desc description st).push (("type ") ++ name)).push_str
            (" implements "))).push_str (" \x7b\n")) with
    | error e =>
      have hne : e ≠ .indent_underflow := fun he =>
        (sformat_fields_run_spec _ _).2 (he ▸ hf)
      refine ⟨fun st' h => ?_, fun h => ?_⟩
      · simp at h
      · have h2 : (Except.error e : Except Err St) = .error .indent_underflow := h
        exact hne (Except.error.inj h2)
    | ok st2 =>
      have hi2 := (sformat_fields_run_spec _ _).1 st2 hf
      refine ⟨fun st' h => ?_, fun h => ?_⟩
      · have h2 : Except.ok (ε := Err) (st2.push ("\x7d\n\n")) = .ok st' := h
        have h3 := Except.ok.inj h2
        subst h3
        exact hi2.trans hS
      · have h2 : Except.ok (ε := Err) (st2.push ("\x7d\n\n")) = .error .indent_underflow := h
        simp at h2
  | enum name description values =>
    have hD : (push_desc description st).indent = st.indent := push_desc_indent description st
    have hfi := foldl_push_nl_indent (sort_by str_le values)
      (((push_desc description st).push (("enum ") ++ name ++ (" \x7b\n"))).increment)
    have hcnt : (List.foldl (fun st value => st.push (value ++ ("\n")))
        (((push_desc description st).push (("enum ") ++ name ++ (" \x7b\n"))).increment)
        (sort_by str_le values)).indent.count = st.indent.count + 1 := by
      rw [hfi]
      simp [hD]
    have hsz : (List.foldl (fun st value => st.push (value ++ ("\n")))
        (((push_desc description st).push (("enum ") ++ name ++ (" \x7b\n"))).increment)
        (sort_by str_le values)).indent.size = st.indent.size := by
      rw [hfi]
      simp [hD]
    have hdec := query.decrement_ok_of_succ _ st.indent.count hcnt
    refine ⟨fun st' h => ?_, fun h => ?_⟩
    · simp only [format_type] at h
      rw [hdec] at h
      have h3 := Except.ok.inj h
      subst h3
      show (⟨(List.foldl (fun st value => st.push (value ++ ("\n")))
        (((push_desc description st).push (("enum ") ++ name ++ (" \x7b\n"))).increment)
        (sort_by str_le values)).indent.size, st.indent.count⟩ : Indentation) = st.indent
      rw [hsz]
    · simp only [format_type] at h
      rw [hdec] at h
      simp at h
  | scalar name description =>
    have hD : (push_desc description st).indent = st.indent := push_desc_indent description st
    refine ⟨fun st' h => ?_, fun h => ?_⟩
    · simp only [format_type] at h
      have h3 := Except.ok.inj h
      subst h3
      exact hD
    · simp only [format_type] at h
      simp at h
  | interface name description fields =>
    have hD : (push_desc description st).indent = st.indent := push_desc_indent description st
    have hstep : format_type (.interface name description fields) st =
        (match format_fields fields
            ((push_desc description st).push (("interface ") ++ name ++ (" \x7b\n"))) with
         | .error e => Except.error e
         | .ok st2 => .ok (st2.push ("\x7d\n\n"))) := by
      simp only [format_type]
    rw [hstep]
    cases hf : format_fields fields
        ((push_desc description st).push (("interface ") ++ name ++ (" \x7b\n"))) with
    | error e =>
      have hne : e ≠ .indent_underflow := fun he =>
        (sformat_fields_run_spec _ _).2 (he ▸ hf)
      refine ⟨fun st' h => ?_, fun h => ?_⟩
      · simp at h
      · have h2 : (Except.error e : Except Err St) = .error .indent_underflow := h
        exact hne (Except.error.inj h2)
    | ok st2 =>
      have hi2 := (sformat_fields_run_spec _ _).1 st2 hf
      refine ⟨fun st' h => ?_, fun h => ?_⟩
      · have h2 : Except.ok (ε := Err) (st2.push ("\x7d\n\n")) = .ok st' := h
        have h3 := Except.ok.inj h2
        subst h3
        exact hi2.trans hD
      · have h2 : Except.ok (ε := Err) (st2.push ("\x7d\n\n")) = .error .indent_underflow := h
        simp at h2
  | input_object name description fields =>
    have hD : (push_desc description st).indent = st.indent := push_desc_indent description st
    refine ⟨fun st' h => ?_, fun h => ?_⟩
    · simp only [format_type, format_input_values_spec] at h
      have h3 := Except.ok.inj h
      subst h3
      exact hD
    · simp only [format_type, format_input_values_spec] at h
      simp at h
  | union name description types =>
    have hD : (push_desc description st).indent = st.indent := push_desc_indent description st
    refine ⟨fun st' h => ?_, fun h => ?_⟩
    · simp only [format_type] at h
      have h3 := Except.ok.inj h
      subst h3
      exact hD
    · simp only [format_type] at h
      simp at h

theorem sformat_def_run_spec (d : Definition) (st : St) :
    (∀ st' : St, format_def d st = .ok st' → st'.indent = st.indent) ∧
    format_def d st ≠ .error .indent_underflow := by
  cases d with
  | schema_definition m q sub =>
    refine ⟨fun st' h => ?_, fun h => ?_⟩
    · rw [schema_block_eval] at h
      have h3 := Except.ok.inj h
      subst h3
      rfl
    · rw [schema_block_eval] at h
      simp at h
  | type_definition type_def => exact sformat_type_run_spec type_def st
  | type_extension =>
    refine ⟨fun st' h => ?_, fun h => ?_⟩
    · simp only [format_def] at h
      simp at h
    · simp only [format_def] at h
      have h2 := Except.error.inj h
      simp at h2
  | directive_definition =>
    refine ⟨fun st' h => ?_, fun h => ?_⟩
    · simp only [format_def] at h
      simp at h
    · simp only [format_def] at h
      have h2 := Except.error.inj h
      simp at h2

theorem sformat_doc_run_spec (doc : Document) : ∀ st : St,
    (∀ st' : St, format_doc doc st = .ok st' → st'.indent = st.indent) ∧
    format_doc doc st ≠ .error .indent_underflow := by
  induction doc with
  | nil =>
    intro st
    refine ⟨fun st' h => ?_, by simp [format_doc]⟩
    have h2 : st = st' := Except.ok.inj h
    subst h2
    rfl
  | cons d rest ih =>
    intro st
    have hstep : format_doc (d :: rest) st =
        (match format_def d st with
         | .error e => Except.error e
         | .ok st1 => format_doc rest st1) := by
      simp only [format_doc]
    rw [hstep]
    cases hd : format_def d st with
    | error e =>
      have hne : e ≠ .indent_underflow := fun he => (sformat_def_run_spec d st).2 (he ▸ hd)
      refine ⟨fun st' h => ?_, fun h => ?_⟩
      · simp at h
      · have h2 : (Except.error e : Except Err St) = .error .indent_underflow := h
        exact hne (Except.error.inj h2)
    | ok st1 =>
      have hi1 := (sformat_def_run_spec d st).1 st1 hd
      refine ⟨fun st' h => ?_, (ih st1).2⟩
      exact ((ih st1).1 st' h).trans hi1

end schema

/-! ## C5: separators between top-level query definitions -/

def c5_doc : query.Document :=
  [.fragment ⟨("F"), ("T"), 0, [.field (.mk none ("a") [] 0 [])]⟩,
   .operation (.query ⟨some ("Q"), [], 0, [.field (.mk none ("b") [] 0 [])]⟩)]

/-- C5 (amended): the whole query-document result is trimmed of leading
and trailing whitespace, but the blank-line separator only follows
keyword operations (`query`/`mutation`/`subscription`, which append a
newline after the selection set's closing `"}\n"`); a fragment definition
or a bare selection-set operation appends text that ends in a single
`"}\n"` and is not followed by any blank line, so the next definition
starts on the very next line. -/
theorem claim_c5_definition_separators :
    (∀ (doc : query.Document) (s : String), query.format doc = .ok s → rust_trim s = s) ∧
    (∀ (keyword : String) (op : query.OperationBody) (st st' : St),
      query.format_operation_type keyword op st = .ok st' →
      op.selection_set.isEmpty = false →
      ∃ b, st'.out.buf = st.out.buf ++ (b ++ ("\x7d\n\n"))) ∧
    (∀ (frag : query.FragmentDefinition) (st st' : St),
      query.format_fragment frag st = .ok st' →
      frag.selection_set.isEmpty = false →
      ∃ b, st'.out.buf = st.out.buf ++ (b ++ ("\x7d\n")) ∧
        ∀ b2 : String, st'.out.buf ≠ st.out.buf ++ (b2 ++ ("\n\n"))) ∧
    (∀ (set : List query.Selection) (st st' : St),
      query.format_selection_set set st = .ok st' →
      set.isEmpty = false →
      ∃ b, st'.out.buf = st.out.buf ++ (b ++ ("\x7d\n")) ∧
        ∀ b2 : String, st'.out.buf ≠ st.out.buf ++ (b2 ++ ("\n\n"))) := by
  refine ⟨fun doc s h => ?_, fun keyword op st st' h hne => ?_,
    fun frag st st' h hne => ?_, fun set st st' h hne => ?_⟩
  · cases hdoc : query.format_doc doc St.new with
    | error e =>
      rw [query.format, hdoc] at h
      simp at h
    | ok stf =>
      rw [query.format, hdoc] at h
      have h2 := Except.ok.inj h
      subst h2
      exact rust_trim_idem _
  · obtain ⟨hind, c, hbuf, hend⟩ := (query.format_operation_type_spec keyword op st).1 st' h
    obtain ⟨b0, hb0⟩ := hend hne
    exact ⟨b0, by rw [hbuf, hb0]⟩
  · obtain ⟨hind, c, hbuf, hend⟩ := (query.format_fragment_spec frag st).1 st' h
    obtain ⟨b0, hb0⟩ := hend hne
    refine ⟨b0, by rw [hbuf, hb0], fun b2 hcontra => ?_⟩
    rw [hbuf, hb0] at hcontra
    exact brace_nl_ne_nl_nl b0 b2 (str_append_left_cancel hcontra)
  · obtain ⟨hind, c, hbuf, hend⟩ := (query.format_selection_set_spec set st).1 st' h
    obtain ⟨b0, hb0⟩ := hend hne
    refine ⟨b0, by rw [hbuf, hb0], fun b2 hcontra => ?_⟩
    rw [hbuf, hb0] at hcontra
    exact brace_nl_ne_nl_nl b0 b2 (str_append_left_cancel hcontra)

/-- C5 counterexample to the claim as stated: in a document consisting of
a fragment definition followed by a query operation, the fragment is NOT
followed by a blank-line separator — the `query` keyword starts on the
very next line. -/
theorem claim_c5_counterexample :
    query.format c5_doc =
      .ok ("fragment F on T \x7b\n  a\n\x7d\nquery Q \x7b\n  b\n\x7d") ∧
    ("fragment F on T \x7b\n  a\n\x7d\nquery Q \x7b\n  b\n\x7d") ≠
      ("fragment F on T \x7b\n  a\n\x7d\n\nquery Q \x7b\n  b\n\x7d") := by
  constructor
  · rw [← query.format_eval_eq]
    rfl
  · decide

/-- C5 witness: the amended theorem instantiated on a concrete
two-definition document; the formatted result is indeed trim-stable. -/
theorem claim_c5_definition_separators_witness :
    query.format c5_doc = .ok ("fragment F on T \x7b\n  a\n\x7d\nquery Q \x7b\n  b\n\x7d") ∧
    rust_trim ("fragment F on T \x7b\n  a\n\x7d\nquery Q \x7b\n  b\n\x7d") =
      ("fragment F on T \x7b\n  a\n\x7d\nquery Q \x7b\n  b\n\x7d") := by
  have h : query.format c5_doc =
      .ok ("fragment F on T \x7b\n  a\n\x7d\nquery Q \x7b\n  b\n\x7d") := by
    rw [← query.format_eval_eq]
    rfl
  exact ⟨h, claim_c5_definition_separators.1 c5_doc _ h⟩

/-! ## C10: indentation increments and decrements balance -/

def c10_doc : query.Document :=
  [.operation (.query ⟨some ("Q"), [], 0, [.field (.mk none ("b") [] 0 [])]⟩)]

def c10_st : St := ⟨⟨2, 0⟩, ⟨("query Q \x7b\n  b\n\x7d\n\n")⟩⟩

/-- C10: the indentation contract holds for both printers: a successful
`format_doc` run returns with the indentation count exactly where it
started (in particular at zero for the top-level run from `St.new`), and
no run ever calls `Indentation::decrement` at depth zero (the underflow
panic, modelled as the `indent_underflow` error, is unreachable). -/
theorem claim_c10_indent_balance :
    (∀ (doc : query.Document) (st st' : St), query.format_doc doc st = .ok st' →
      st'.indent.count = st.indent.count) ∧
    (∀ (doc : query.Document) (st : St),
      query.format_doc doc st ≠ .error .indent_underflow) ∧
    (∀ (doc : query.Document) (st' : St), query.format_doc doc St.new = .ok st' →
      st'.indent.count = 0) ∧
    (∀ (doc : schema.Document) (st st' : St), schema.format_doc doc st = .ok st' →
      st'.indent.count = st.indent.count) ∧
    (∀ (doc : schema.Document) (st : St),
      schema.format_doc doc st ≠ .error .indent_underflow) ∧
    (∀ (doc : schema.Document) (st' : St), schema.format_doc doc St.new = .ok st' →
      st'.indent.count = 0) := by
  refine ⟨fun doc st st' h => ?_, fun doc st => (query.format_doc_run_spec doc st).2,
    fun doc st' h => ?_, fun doc st st' h => ?_,
    fun doc st => (schema.sformat_doc_run_spec doc st).2, fun doc st' h => ?_⟩
  · obtain ⟨hi, _⟩ := (query.format_doc_run_spec doc st).1 st' h
    rw [hi]
  · obtain ⟨hi, _⟩ := (query.format_doc_run_spec doc St.new).1 st' h
    rw [hi]
    rfl
  · rw [(schema.sformat_doc_run_spec doc st).1 st' h]
  · rw [(schema.sformat_doc_run_spec doc St.new).1 st' h]
    rfl

/-- C10 witness: a concrete run of the query printer from the fresh
state returns with indentation count zero, via the claim theorem. -/
theorem claim_c10_indent_balance_witness :
    query.format_doc c10_doc St.new = .ok c10_st ∧
    c10_st.indent.count = St.new.indent.count := by
  have h : query.format_doc c10_doc St.new = .ok c10_st := by
    rw [← query.format_doc_eval_eq]
    rfl
  exact ⟨h, claim_c10_indent_balance.1 c10_doc St.new c10_st h⟩
